import Mathlib

/-!
Verification of the short-Weierstrass Jacobian projective-point arithmetic of
src/curves/src/templates/short_weierstrass_jacobian/projective.rs.

The base field of the curve is embedded as an arbitrary `Field F` with decidable
equality (the Rust code consumes the field as an opaque collaborator supporting
add / sub / mul / square / double / inverse / one / zero and equality).  The
curve parameter trait supplies the Weierstrass coefficient `WEIERSTRASS_A`,
which we pass around as an explicit value `aW : F`; the field-specific
`mul_by_a` is multiplication by that coefficient.

Points are triples of field elements, mirroring `struct Projective<P>`.
All group operations are transcribed from the source as sequential
let-bindings that mirror the in-place mutation order of the Rust code.
-/

section Embedding

variable {F : Type} [Field F] [DecidableEq F]

/-- `struct Projective<P>` of the source: Jacobian coordinates `(x, y, z)`. -/
structure Projective (F : Type) where
  x : F
  y : F
  z : F
deriving DecidableEq, Fintype

/-- The affine point representation (an external collaborator of this module):
two coordinates plus an infinity flag, as in the sibling `Affine<P>` type. -/
structure AffinePoint (F : Type) where
  x : F
  y : F
  infinity : Bool
deriving DecidableEq, Fintype

/-- `Zero::zero`: the canonical point at infinity `(0, 1, 0)`. -/
def Projective.zero : Projective F :=
  ⟨0, 1, 0⟩

/-- `Zero::is_zero`: the point at infinity is always represented by `Z = 0`. -/
def Projective.is_zero (p : Projective F) : Bool :=
  p.z == 0

/-- `ProjectiveCurve::is_normalized`: `self.is_zero() || self.z.is_one()`. -/
def Projective.is_normalized (p : Projective F) : Bool :=
  p.is_zero || p.z == 1

/-- `PartialEq for Projective<P>`: the projective-equivalence check
`X1·Z2² = X2·Z1²` and `Y1·Z2³ = Y2·Z1³`, with infinity equal only to
infinity. -/
def Projective.eq (p q : Projective F) : Bool :=
  if p.is_zero then
    q.is_zero
  else if q.is_zero then
    false
  else
    -- z1 = self.z.square(); z2 = other.z.square()
    let z1 := p.z * p.z
    let z2 := q.z * q.z
    !(p.x * z2 != q.x * z1 || p.y * (z2 * q.z) != q.y * (z1 * p.z))

/-- `Neg for Projective<P>`: `(X, -Y, Z)` unless the point is infinity. -/
def Projective.neg (p : Projective F) : Projective F :=
  if !p.is_zero then ⟨p.x, -p.y, p.z⟩ else p

/-- `AffinePoint::is_zero`: the infinity flag (external collaborator). -/
def AffinePoint.is_zero (q : AffinePoint F) : Bool :=
  q.infinity

/-- Modelled from the spec: affine negation `(X, -Y)` (external collaborator;
the spec lists negation as `(X, -Y, Z)` with infinity mapped to itself, and the
infinity flag is preserved). -/
def AffinePoint.neg (q : AffinePoint F) : AffinePoint F :=
  ⟨q.x, -q.y, q.infinity⟩

/-- `From<Affine<P>> for Projective<P>`: the affine point `(X, Y)` is
represented in Jacobian coordinates with `Z = 1`; affine infinity maps to the
canonical projective infinity. -/
def Projective.fromAffine (q : AffinePoint F) : Projective F :=
  if q.is_zero then Projective.zero else ⟨q.x, q.y, 1⟩

/-- `ProjectiveCurve::double_in_place`, as a function returning the doubled
point (`double` copies the receiver and doubles in place).  The branch on
`P::WEIERSTRASS_A.is_zero()` selects between the two formula variants; the
external `P::mul_by_a` is multiplication by the `a` coefficient. -/
def Projective.double (aW : F) (p : Projective F) : Projective F :=
  if p.is_zero then p
  else if aW = 0 then
    -- A = X1^2
    let a := p.x * p.x
    -- B = Y1^2
    let b := p.y * p.y
    -- C = B^2
    let c := b * b
    -- D = 2*((X1+B)^2-A-C)
    let d0 := (p.x + b) * (p.x + b) - a - c
    let d := d0 + d0
    -- E = 3*A  (old_a = a; a.double_in_place(); e = old_a + a)
    let e := a + (a + a)
    -- F = E^2
    let f := e * e
    -- Z3 = 2*Y1*Z1  (self.z *= &self.y; self.z.double_in_place())
    let z30 := p.z * p.y
    let z3 := z30 + z30
    -- X3 = F-2*D
    let x3 := f - (d + d)
    -- Y3 = E*(D-X3)-8*C  (c is doubled in place three times)
    let c2 := c + c
    let c4 := c2 + c2
    let c8 := c4 + c4
    let y3 := (d - x3) * e - c8
    ⟨x3, y3, z3⟩
  else
    -- XX = X1^2
    let xx := p.x * p.x
    -- YY = Y1^2
    let yy := p.y * p.y
    -- YYYY = YY^2
    let yyyy := yy * yy
    -- ZZ = Z1^2
    let zz := p.z * p.z
    -- S = 2*((X1+YY)^2-XX-YYYY)
    let s0 := (p.x + yy) * (p.x + yy) - xx - yyyy
    let s := s0 + s0
    -- M = 3*XX+a*ZZ^2
    let m := (xx + xx) + xx + aW * (zz * zz)
    -- T = M^2-2*S
    let t := m * m - (s + s)
    -- X3 = T
    let x3 := t
    -- Y3 = M*(S-T)-8*YYYY  (yyyy is doubled in place three times)
    let y2 := yyyy + yyyy
    let y4 := y2 + y2
    let y8 := y4 + y4
    let y3 := m * (s - t) - y8
    -- Z3 = (Y1+Z1)^2-YY-ZZ  (old_y saved before self.y is overwritten)
    let z3 := (p.y + p.z) * (p.y + p.z) - yy - zz
    ⟨x3, y3, z3⟩

/-- `AddAssign<&Self> for Projective<P>` (`add-2007-bl`), as a function
returning the sum. -/
def Projective.add (aW : F) (p q : Projective F) : Projective F :=
  if p.is_zero then q
  else if q.is_zero then p
  else
    -- Z1Z1 = Z1^2
    let z1z1 := p.z * p.z
    -- Z2Z2 = Z2^2
    let z2z2 := q.z * q.z
    -- U1 = X1*Z2Z2
    let u1 := p.x * z2z2
    -- U2 = X2*Z1Z1
    let u2 := q.x * z1z1
    -- S1 = Y1*Z2*Z2Z2
    let s1 := p.y * q.z * z2z2
    -- S2 = Y2*Z1*Z1Z1
    let s2 := q.y * p.z * z1z1
    if u1 = u2 ∧ s1 = s2 then
      -- The two points are equal, so we double.
      Projective.double aW p
    else
      -- H = U2-U1
      let h := u2 - u1
      -- I = (2*H)^2
      let i := (h + h) * (h + h)
      -- J = H*I
      let j := h * i
      -- r = 2*(S2-S1)
      let r := (s2 - s1) + (s2 - s1)
      -- V = U1*I
      let v := u1 * i
      -- X3 = r^2 - J - 2*V
      let x3 := r * r - j - (v + v)
      -- Y3 = r*(V - X3) - 2*S1*J  (sum_of_products([r, -2*S1], [V - X3, J]))
      let y3 := r * (v - x3) + -(s1 + s1) * j
      -- Z3 = ((Z1+Z2)^2 - Z1Z1 - Z2Z2)*H
      let z3 := ((p.z + q.z) * (p.z + q.z) - z1z1 - z2z2) * h
      ⟨x3, y3, z3⟩

/-- `ProjectiveCurve::add_assign_mixed` (`madd-2007-bl`), as a function
returning the sum of a projective point and an affine point. -/
def Projective.add_assign_mixed (aW : F) (p : Projective F) (q : AffinePoint F) :
    Projective F :=
  if q.is_zero then p
  else if p.is_zero then ⟨q.x, q.y, 1⟩
  else
    -- Z1Z1 = Z1^2
    let z1z1 := p.z * p.z
    -- U2 = X2*Z1Z1
    let u2 := q.x * z1z1
    -- S2 = Y2*Z1*Z1Z1
    let s2 := q.y * p.z * z1z1
    if p.x = u2 ∧ p.y = s2 then
      -- The two points are equal, so we double.
      Projective.double aW p
    else
      -- H = U2-X1
      let h := u2 - p.x
      -- HH = H^2
      let hh := h * h
      -- I = 4*HH  (doubled in place twice)
      let i2 := hh + hh
      let i := i2 + i2
      -- J = H*I
      let j := h * i
      -- r = 2*(S2-Y1)
      let r0 := s2 - p.y
      let r := r0 + r0
      -- V = X1*I
      let v := p.x * i
      -- X3 = r^2 - J - 2*V
      let x3 := r * r - j - (v + v)
      -- Y3 = r*(V-X3)-2*Y1*J  (sum_of_products([r, -2*Y1], [V - X3, J]))
      let y3 := r * (v - x3) + -(p.y + p.y) * j
      -- Z3 = (Z1+H)^2-Z1Z1-HH
      let z3 := (p.z + h) * (p.z + h) - z1z1 - hh
      ⟨x3, y3, z3⟩

/-- `add_mixed` (trait-provided): copy the receiver, then `add_assign_mixed`. -/
def Projective.add_mixed (aW : F) (p : Projective F) (q : AffinePoint F) :
    Projective F :=
  Projective.add_assign_mixed aW p q

end Embedding

section BasicLemmas

variable {F : Type} [Field F] [DecidableEq F]

lemma Projective.is_zero_iff (p : Projective F) : p.is_zero = true ↔ p.z = 0 := by
  simp [Projective.is_zero]

lemma Projective.is_zero_false_iff (p : Projective F) : p.is_zero = false ↔ p.z ≠ 0 := by
  simp [Projective.is_zero]

lemma Projective.eq_refl (p : Projective F) : Projective.eq p p = true := by
  unfold Projective.eq
  by_cases h : p.is_zero
  · simp [h]
  · simp [h]

lemma Projective.eq_zero_zero {p q : Projective F} (hp : p.z = 0) (hq : q.z = 0) :
    Projective.eq p q = true := by
  unfold Projective.eq
  simp [Projective.is_zero, hp, hq]

lemma Projective.eq_iff_of_left_zero {p : Projective F} (q : Projective F) (hp : p.z = 0) :
    (Projective.eq p q = true ↔ q.z = 0) := by
  unfold Projective.eq
  simp [Projective.is_zero, hp]

lemma Projective.eq_true_iff {p q : Projective F} (hp : p.z ≠ 0) (hq : q.z ≠ 0) :
    Projective.eq p q = true ↔
      p.x * (q.z * q.z) = q.x * (p.z * p.z) ∧
        p.y * (q.z * q.z * q.z) = q.y * (p.z * p.z * p.z) := by
  unfold Projective.eq
  simp only [Projective.is_zero, beq_iff_eq, hp, hq, if_false]
  constructor
  · intro h
    simp only [Bool.not_or, Bool.and_eq_true, Bool.not_eq_true', bne_eq_false_iff_eq] at h
    exact ⟨h.1, by linear_combination h.2⟩
  · intro h
    simp only [Bool.not_or, Bool.and_eq_true, Bool.not_eq_true', bne_eq_false_iff_eq]
    exact ⟨h.1, by linear_combination h.2⟩

lemma Projective.eq_false_of_right_zero {p q : Projective F} (hp : p.z ≠ 0) (hq : q.z = 0) :
    Projective.eq p q = false := by
  unfold Projective.eq
  simp [Projective.is_zero, hp, hq]

lemma Projective.eq_symm {p q : Projective F} (h : Projective.eq p q = true) :
    Projective.eq q p = true := by
  by_cases hp : p.z = 0
  · have := (Projective.eq_iff_of_left_zero q hp).mp h
    exact Projective.eq_zero_zero this hp
  · by_cases hq : q.z = 0
    · rw [Projective.eq_false_of_right_zero hp hq] at h
      exact absurd h (by simp)
    · rcases (Projective.eq_true_iff hp hq).mp h with ⟨h1, h2⟩
      exact (Projective.eq_true_iff hq hp).mpr ⟨h1.symm, h2.symm⟩

/-- The general addition applied to two identical triples dispatches to the
doubling routine, so `P + P` and `double P` coincide coordinatewise. -/
lemma Projective.add_self_eq_double (aW : F) (p : Projective F) :
    Projective.add aW p p = Projective.double aW p := by
  unfold Projective.add
  by_cases h : p.is_zero = true
  · rw [if_pos h]
    unfold Projective.double
    rw [if_pos h]
  · simp [h]

end BasicLemmas

section StructuralClaims

variable {F : Type} [Field F] [DecidableEq F]

/-- Claim C3: for every projective point `P` (over any curve coefficient `a`,
hence under both the `a = 0` and the `a ≠ 0` doubling formula branches),
`double P` returns the same group element — in fact the same coordinate
triple — as `P + P` computed with the general addition. -/
theorem double_matches_general_self_add (aW : F) (p : Projective F) :
    Projective.eq (Projective.double aW p) (Projective.add aW p p) = true ∧
      Projective.add aW p p = Projective.double aW p := by
  refine ⟨?_, Projective.add_self_eq_double aW p⟩
  rw [Projective.add_self_eq_double aW p]
  exact Projective.eq_refl _

/-- Claim C5: in `add_assign_mixed`, adding an affine infinity operand is a
no-op; an infinity receiver copies the operand's coordinates with `Z := 1`;
and when the derived terms satisfy `U2 == X1` and `S2 == Y1` under raw field
equality the operation dispatches to the doubling routine. -/
theorem add_assign_mixed_early_outs_and_double_dispatch
    (aW : F) (p : Projective F) (q : AffinePoint F) :
    (q.is_zero = true → Projective.add_assign_mixed aW p q = p) ∧
      (q.is_zero = false → p.is_zero = true →
        Projective.add_assign_mixed aW p q = ⟨q.x, q.y, 1⟩) ∧
      (q.is_zero = false → p.is_zero = false →
        p.x = q.x * (p.z * p.z) → p.y = q.y * p.z * (p.z * p.z) →
        Projective.add_assign_mixed aW p q = Projective.double aW p) := by
  refine ⟨fun hq => ?_, fun hq hp => ?_, fun hq hp hx hy => ?_⟩
  · unfold Projective.add_assign_mixed
    rw [if_pos hq]
  · unfold Projective.add_assign_mixed
    rw [if_neg (by simp [hq]), if_pos hp]
  · unfold Projective.add_assign_mixed
    rw [if_neg (by simp [hq]), if_neg (by simp [hp])]
    exact if_pos ⟨hx, hy⟩

/-- Claim C6: projective equality is invariant under coordinate scaling by any
nonzero field element `c`, mapping `(X, Y, Z)` to `(c²X, c³Y, cZ)`; moreover a
triple with `Z = 0` is equal exactly to the triples with `Z = 0`. -/
theorem eq_respects_coordinate_scaling (c xc yc zc : F) (hc : c ≠ 0) :
    Projective.eq (⟨xc, yc, zc⟩ : Projective F) ⟨c ^ 2 * xc, c ^ 3 * yc, c * zc⟩ = true ∧
      ∀ p q : Projective F, p.z = 0 → (Projective.eq p q = true ↔ q.z = 0) := by
  constructor
  · by_cases hz : zc = 0
    · exact Projective.eq_zero_zero hz (by simp [hz])
    · exact (Projective.eq_true_iff hz (mul_ne_zero hc hz)).mpr ⟨by ring, by ring⟩
  · exact fun p q hp => Projective.eq_iff_of_left_zero q hp

instance : Fact (Nat.Prime 5) :=
  ⟨by norm_num⟩

/-- Witness for C6 at a concrete input over `ZMod 5`. -/
theorem eq_respects_coordinate_scaling_witness :
    (2 : ZMod 5) ≠ 0 ∧
      (Projective.eq (⟨1, 2, 3⟩ : Projective (ZMod 5))
          ⟨2 ^ 2 * 1, 2 ^ 3 * 2, 2 * 3⟩ = true ∧
        ∀ p q : Projective (ZMod 5), p.z = 0 →
          (Projective.eq p q = true ↔ q.z = 0)) :=
  ⟨by decide, eq_respects_coordinate_scaling 2 1 2 3 (by decide)⟩

/-- Claim C10: any coordinate triple with `Z = 0` is treated as the identity by
every operation: `is_zero` holds, equality identifies it with exactly the
`Z = 0` triples regardless of `X` and `Y`, addition with it returns the other
operand, and doubling and negation leave it unchanged. -/
theorem z_zero_triples_behave_as_identity (aW : F) (p : Projective F) (hp : p.z = 0) :
    p.is_zero = true ∧
      (∀ q, (Projective.eq p q = true ↔ q.z = 0)) ∧
      (∀ q, Projective.add aW p q = q) ∧
      (∀ q : Projective F, q.z ≠ 0 → Projective.add aW q p = q) ∧
      Projective.double aW p = p ∧
      Projective.neg p = p := by
  have hpz : p.is_zero = true := by simp [Projective.is_zero, hp]
  refine ⟨hpz, fun q => Projective.eq_iff_of_left_zero q hp, fun q => ?_, fun q hq => ?_, ?_, ?_⟩
  · unfold Projective.add
    rw [if_pos hpz]
  · unfold Projective.add
    rw [if_neg (by simp [Projective.is_zero, hq]), if_pos hpz]
  · unfold Projective.double
    rw [if_pos hpz]
  · unfold Projective.neg
    simp [hpz]

/-- Witness for C10 at a concrete non-canonical `Z = 0` triple over `ZMod 5`. -/
theorem z_zero_triples_behave_as_identity_witness :
    (⟨3, 4, 0⟩ : Projective (ZMod 5)).z = 0 ∧
      ((⟨3, 4, 0⟩ : Projective (ZMod 5)).is_zero = true ∧
        (∀ q, (Projective.eq (⟨3, 4, 0⟩ : Projective (ZMod 5)) q = true ↔ q.z = 0)) ∧
        (∀ q, Projective.add 1 (⟨3, 4, 0⟩ : Projective (ZMod 5)) q = q) ∧
        (∀ q : Projective (ZMod 5), q.z ≠ 0 →
          Projective.add 1 q ⟨3, 4, 0⟩ = q) ∧
        Projective.double 1 (⟨3, 4, 0⟩ : Projective (ZMod 5)) = ⟨3, 4, 0⟩ ∧
        Projective.neg (⟨3, 4, 0⟩ : Projective (ZMod 5)) = ⟨3, 4, 0⟩) :=
  ⟨rfl, z_zero_triples_behave_as_identity 1 ⟨3, 4, 0⟩ rfl⟩

/-- Witness for C5: the three branch hypotheses discharged at concrete inputs
over `ZMod 5`. -/
theorem add_assign_mixed_early_outs_witness :
    Projective.add_assign_mixed 1 (⟨1, 2, 3⟩ : Projective (ZMod 5)) ⟨4, 4, true⟩ = ⟨1, 2, 3⟩ ∧
      Projective.add_assign_mixed 1 (⟨1, 2, 0⟩ : Projective (ZMod 5)) ⟨4, 4, false⟩ = ⟨4, 4, 1⟩ ∧
      Projective.add_assign_mixed 1 (⟨2, 3, 1⟩ : Projective (ZMod 5)) ⟨2, 3, false⟩ =
        Projective.double 1 ⟨2, 3, 1⟩ :=
  ⟨(add_assign_mixed_early_outs_and_double_dispatch 1 ⟨1, 2, 3⟩ ⟨4, 4, true⟩).1 (by decide),
    (add_assign_mixed_early_outs_and_double_dispatch 1 ⟨1, 2, 0⟩ ⟨4, 4, false⟩).2.1
      (by decide) (by decide),
    (add_assign_mixed_early_outs_and_double_dispatch 1 ⟨2, 3, 1⟩ ⟨2, 3, false⟩).2.2
      (by decide) (by decide) (by decide) (by decide)⟩

/-- When neither operand is the identity, mixed addition and general addition
against the `Z = 1` lift of the affine operand produce identical coordinates:
the dispatch conditions agree, and the `madd-2007-bl` formula is the
`add-2007-bl` formula specialised to `Z2 = 1`. -/
lemma Projective.add_assign_mixed_eq_general {aW : F} {p : Projective F} {q : AffinePoint F}
    (hp : p.is_zero = false) (hq : q.is_zero = false) :
    Projective.add_assign_mixed aW p q = Projective.add aW p (Projective.fromAffine q) := by
  have hfa : Projective.fromAffine q = ⟨q.x, q.y, 1⟩ := by
    unfold Projective.fromAffine
    rw [if_neg (by simp [hq])]
  have hq' : Projective.is_zero (⟨q.x, q.y, 1⟩ : Projective F) = false := by
    simp [Projective.is_zero]
  rw [hfa]
  unfold Projective.add_assign_mixed Projective.add
  have hpz : ¬(p.is_zero = true) := by simp [hp]
  have hqz : ¬(AffinePoint.is_zero q = true) := by simp [hq]
  have hq1 : ¬(Projective.is_zero (⟨q.x, q.y, 1⟩ : Projective F) = true) := by
    simp [Projective.is_zero]
  simp only [if_neg hpz, if_neg hqz, if_neg hq1]
  by_cases hC : p.x = q.x * (p.z * p.z) ∧ p.y = q.y * p.z * (p.z * p.z)
  · have hC2 : p.x * (1 * 1) = q.x * (p.z * p.z) ∧
        p.y * 1 * (1 * 1) = q.y * p.z * (p.z * p.z) :=
      ⟨by rw [mul_one, mul_one]; exact hC.1, by rw [mul_one, mul_one, mul_one]; exact hC.2⟩
    rw [if_pos hC, if_pos hC2]
  · have hC2 : ¬(p.x * (1 * 1) = q.x * (p.z * p.z) ∧
        p.y * 1 * (1 * 1) = q.y * p.z * (p.z * p.z)) :=
      fun hC' => hC ⟨by rw [← hC'.1]; ring, by rw [← hC'.2]; ring⟩
    rw [if_neg hC, if_neg hC2]
    simp only [Projective.mk.injEq]
    exact ⟨by ring, by ring, by ring⟩

/-- Claim C4: for every projective point `P` and affine point `Q`, mixed
addition `P.add_assign_mixed(Q)` yields the same group element as the general
projective addition `P + from(Q)`. -/
theorem mixed_addition_matches_general (aW : F) (p : Projective F) (q : AffinePoint F) :
    Projective.eq (Projective.add_assign_mixed aW p q)
      (Projective.add aW p (Projective.fromAffine q)) = true := by
  by_cases hq : q.is_zero = true
  · have hfa : Projective.fromAffine q = Projective.zero := by
      unfold Projective.fromAffine
      rw [if_pos hq]
    rw [hfa]
    unfold Projective.add_assign_mixed
    rw [if_pos hq]
    unfold Projective.add
    by_cases hp : p.is_zero = true
    · rw [if_pos hp]
      exact Projective.eq_zero_zero ((Projective.is_zero_iff p).mp hp) rfl
    · rw [if_neg (by simp [hp]), if_pos (by simp [Projective.zero, Projective.is_zero])]
      exact Projective.eq_refl p
  · by_cases hp : p.is_zero = true
    · have hfa : Projective.fromAffine q = ⟨q.x, q.y, 1⟩ := by
        unfold Projective.fromAffine
        rw [if_neg (by simp [hq])]
      unfold Projective.add_assign_mixed
      rw [if_neg (by simp [hq]), if_pos hp]
      unfold Projective.add
      rw [if_pos hp, hfa]
      exact Projective.eq_refl _
    · rw [Projective.add_assign_mixed_eq_general (by simp [hp]) (by simp [hq])]
      exact Projective.eq_refl _

end StructuralClaims

section BatchNormalization

variable {F : Type} [Field F] [DecidableEq F]

/-- Modelled from the spec: `Field::inverse` is the only fallible primitive and
fails exactly on the additive identity (external collaborator). -/
def FieldInverse (xv : F) : Option F :=
  if xv = 0 then none else some xv⁻¹

/-- First pass of `batch_normalization`: `tmp.mul_assign(&g.z); prod.push(tmp)`
over the non-normalized points, threading the running product `tmp`.
Returns the pushed partial products and the final running product. -/
def firstPassAux (tmp : F) : List F → List F × F
  | [] => ([], tmp)
  | zv :: zs =>
    let tmp1 := tmp * zv
    let r := firstPassAux tmp1 zs
    (tmp1 :: r.1, r.2)

/-- The `Z` coordinates of the non-normalized points of a sequence, in order
(the `v.iter_mut().filter(|g| !g.is_normalized())` view of the code). -/
def nonNormalizedZs (v : List (Projective F)) : List F :=
  (v.filter fun g => !g.is_normalized).map Projective.z

/-- Second pass of `batch_normalization`: walk the non-normalized points
backwards (first argument: the reversed `Z` list), zipped against the pushed
products reversed, skipping the last and chaining a final `one` (second
argument).  Each step performs `newtmp := tmp * g.z; g.z := tmp * s;
tmp := newtmp` and this function returns the new `Z` values in walk order. -/
def secondPassZ (tmp : F) : List F → List F → List F
  | [], _ => []
  | _ :: _, [] => []
  | zv :: zs, s :: ss => (tmp * s) :: secondPassZ (tmp * zv) zs ss

/-- Write a list of replacement `Z` values back into the sequence, consuming
one replacement per non-normalized point (the in-place `g.z = tmp * s` of the
second pass, seen from the whole sequence). -/
def setZs : List (Projective F) → List F → List (Projective F)
  | [], _ => []
  | g :: gs, zs =>
    if g.is_normalized then g :: setZs gs zs
    else
      match zs with
      | [] => g :: setZs gs []
      | z1 :: zs1 => ⟨g.x, g.y, z1⟩ :: setZs gs zs1

/-- Final pass of `batch_normalization`: for each non-normalized point,
`z2 = g.z.square(); g.x *= z2; g.y *= z2 * g.z; g.z = one`. -/
def affineTransform (g : Projective F) : Projective F :=
  if g.is_normalized then g
  else
    let z2 := g.z * g.z
    ⟨g.x * z2, g.y * (z2 * g.z), 1⟩

/-- `ProjectiveCurve::batch_normalization` (Montgomery's trick), transcribed
over lists.  The single field inversion is the code's
`tmp.inverse().unwrap()`; its safety is the subject of claim C7, and the
total field inverse used here agrees with the unwrapped `Option` inverse
because the inverted value is provably nonzero. -/
def batch_normalization (v : List (Projective F)) : List (Projective F) :=
  -- First pass: compute [a, ab, abc, ...]
  let fp := firstPassAux 1 (nonNormalizedZs v)
  -- Invert `tmp`.  (`tmp.inverse().unwrap()` — guaranteed to be nonzero.)
  let tmp := fp.2⁻¹
  -- Second pass: iterate backwards to compute inverses
  let newZsRev := secondPassZ tmp (nonNormalizedZs v).reverse (fp.1.reverse.drop 1 ++ [1])
  -- Perform affine transformations
  (setZs v newZsRev.reverse).map affineTransform

/-- Modelled from the spec: the external conversion from a projective point to
the affine representation, `(X/Z², Y/Z³)` when `Z ≠ 0` and the infinity flag
otherwise (the affine zero carries the canonical coordinates `(0, 1)`). -/
def Projective.to_affine (p : Projective F) : AffinePoint F :=
  if p.is_zero then ⟨0, 1, true⟩
  else ⟨p.x / (p.z * p.z), p.y / (p.z * p.z * p.z), false⟩

/-- Modelled from the spec: the trait-provided `batch_normalization_into_affine`
normalizes the batch and converts each result into affine form. -/
def batch_normalization_into_affine (v : List (Projective F)) : List (AffinePoint F) :=
  (batch_normalization v).map Projective.to_affine

end BatchNormalization

section BatchNormalizationProofs

variable {F : Type} [Field F] [DecidableEq F]

lemma Projective.is_normalized_iff (g : Projective F) :
    g.is_normalized = true ↔ (g.z = 0 ∨ g.z = 1) := by
  simp [Projective.is_normalized, Projective.is_zero]

lemma Projective.is_normalized_false_iff (g : Projective F) :
    g.is_normalized = false ↔ (g.z ≠ 0 ∧ g.z ≠ 1) := by
  simp [Projective.is_normalized, Projective.is_zero]

lemma firstPassAux_append (t : F) (l1 l2 : List F) :
    firstPassAux t (l1 ++ l2) =
      ((firstPassAux t l1).1 ++ (firstPassAux (firstPassAux t l1).2 l2).1,
        (firstPassAux (firstPassAux t l1).2 l2).2) := by
  induction l1 generalizing t with
  | nil => simp [firstPassAux]
  | cons zv zs ih => simp [firstPassAux, ih]

lemma firstPassAux_snd (t : F) (l : List F) : (firstPassAux t l).2 = t * l.prod := by
  induction l generalizing t with
  | nil => simp [firstPassAux]
  | cons zv zs ih =>
    simp only [firstPassAux, ih, List.prod_cons]
    ring

lemma firstPassAux_fst_reverse (t : F) (zs : List F) (h : zs ≠ []) :
    (firstPassAux t zs).1.reverse =
      (firstPassAux t zs).2 :: (firstPassAux t zs).1.reverse.drop 1 := by
  induction zs using List.reverseRecOn with
  | nil => exact absurd rfl h
  | append_singleton zs w _ =>
    rw [firstPassAux_append]
    simp [firstPassAux]

/-- The backward pass recovers exactly the inverses of the `Z` values: with
`tmp` initialised to the inverse of the full running product, walking the
values backwards against the shifted partial products rewrites each `Z` to
`Z⁻¹`. -/
lemma secondPass_inverts (zs : List F) (hnz : ∀ zv ∈ zs, zv ≠ 0) :
    secondPassZ ((firstPassAux (1 : F) zs).2)⁻¹ zs.reverse
        ((firstPassAux (1 : F) zs).1.reverse.drop 1 ++ [1]) =
      (zs.map (·⁻¹)).reverse := by
  induction zs using List.reverseRecOn with
  | nil => simp [firstPassAux, secondPassZ]
  | append_singleton zs w ih =>
    have hw : w ≠ 0 := hnz w (by simp)
    have hnz' : ∀ zv ∈ zs, zv ≠ 0 := fun zv hzv => hnz zv (by simp [hzv])
    have hT : (firstPassAux (1 : F) zs).2 ≠ 0 := by
      rw [firstPassAux_snd]
      rw [one_mul]
      exact List.prod_ne_zero fun h0 => hnz' 0 h0 rfl
    rw [firstPassAux_append]
    by_cases hne : zs = []
    · subst hne
      simp only [firstPassAux, List.nil_append, List.reverse_nil, List.reverse_cons,
        List.map_cons, List.map_nil]
      simp [secondPassZ, mul_inv, inv_mul_cancel_right₀ hw, mul_comm]
    · have hrev := firstPassAux_fst_reverse (1 : F) zs hne
      simp only [firstPassAux, List.reverse_append, List.reverse_cons, List.reverse_nil,
        List.nil_append, List.cons_append, List.drop_succ_cons, List.drop_zero, List.map_append,
        List.map_cons, List.map_nil]
      rw [hrev, List.cons_append]
      simp only [secondPassZ]
      have h1 : ((firstPassAux (1 : F) zs).2 * w)⁻¹ * (firstPassAux (1 : F) zs).2 = w⁻¹ := by
        field_simp
      have h2 : ((firstPassAux (1 : F) zs).2 * w)⁻¹ * w = ((firstPassAux (1 : F) zs).2)⁻¹ := by
        field_simp
        ring
      rw [h1, h2, ih hnz']

lemma setZs_all_normalized (v : List (Projective F))
    (h : ∀ g ∈ v, g.is_normalized = true) (zs : List F) : setZs v zs = v := by
  induction v generalizing zs with
  | nil => rfl
  | cons g gs ih =>
    unfold setZs
    rw [if_pos (h g (by simp)), ih (fun g1 hg1 => h g1 (by simp [hg1]))]

lemma setZs_map_inv (v : List (Projective F)) :
    List.Forall₂
      (fun g g' =>
        (g.is_normalized = true ∧ g' = g) ∨
          (g.is_normalized = false ∧ g' = ⟨g.x, g.y, g.z⁻¹⟩))
      v (setZs v ((nonNormalizedZs v).map (·⁻¹))) := by
  induction v with
  | nil => exact List.Forall₂.nil
  | cons g gs ih =>
    by_cases hg : g.is_normalized = true
    · have hfil : nonNormalizedZs (g :: gs) = nonNormalizedZs gs := by
        simp [nonNormalizedZs, List.filter_cons, hg]
      unfold setZs
      rw [if_pos hg, hfil]
      exact List.Forall₂.cons (Or.inl ⟨hg, rfl⟩) ih
    · have hg' : g.is_normalized = false := by simp at hg; exact hg
      have hfil : nonNormalizedZs (g :: gs) = g.z :: nonNormalizedZs gs := by
        simp [nonNormalizedZs, List.filter_cons, hg']
      unfold setZs
      rw [if_neg hg, hfil]
      exact List.Forall₂.cons (Or.inr ⟨hg', rfl⟩) ih

lemma nonNormalizedZs_ne_zero (v : List (Projective F)) :
    ∀ zv ∈ nonNormalizedZs v, zv ≠ 0 := by
  intro zv hzv
  simp only [nonNormalizedZs, List.mem_map, List.mem_filter] at hzv
  rcases hzv with ⟨g, ⟨_, hg⟩, rfl⟩
  have : g.is_normalized = false := by
    cases h : g.is_normalized
    · rfl
    · rw [h] at hg; exact absurd hg (by simp)
  exact ((Projective.is_normalized_false_iff g).mp this).1

/-- Pointwise characterisation of `batch_normalization`: normalized points are
untouched: every non-normalized point `(X, Y, Z)` becomes
`(X·Z⁻², Y·Z⁻³, 1)`. -/
lemma batch_normalization_spec (v : List (Projective F)) :
    List.Forall₂
      (fun g g' =>
        (g.is_normalized = true ∧ g' = g) ∨
          (g.is_normalized = false ∧
            g' = ⟨g.x * (g.z⁻¹ * g.z⁻¹), g.y * (g.z⁻¹ * g.z⁻¹ * g.z⁻¹), 1⟩))
      v (batch_normalization v) := by
  have hnz := nonNormalizedZs_ne_zero v
  unfold batch_normalization
  simp only
  rw [secondPass_inverts _ hnz, List.reverse_reverse]
  have hset := setZs_map_inv v
  rw [List.forall₂_map_right_iff]
  refine hset.imp ?_
  rintro g g' (⟨hg, rfl⟩ | ⟨hg, rfl⟩)
  · left
    refine ⟨hg, ?_⟩
    unfold affineTransform
    rw [if_pos hg]
  · right
    rcases (Projective.is_normalized_false_iff g).mp hg with ⟨hz0, hz1⟩
    refine ⟨hg, ?_⟩
    have hcond : (⟨g.x, g.y, g.z⁻¹⟩ : Projective F).is_normalized = false := by
      rw [Projective.is_normalized_false_iff]
      exact ⟨inv_ne_zero hz0, fun h => hz1 (inv_eq_one.mp h)⟩
    unfold affineTransform
    rw [if_neg (by simp [hcond])]

/-- Claim C2: after `batch_normalization`, every point is the identity or has
`Z = 1`; pointwise, each output point is the same group element as the input
point it replaces; and a sequence of already-normalized points is left with
all coordinates unchanged. -/
theorem batch_normalization_correct (v : List (Projective F)) :
    (∀ g ∈ batch_normalization v, g.is_normalized = true) ∧
      List.Forall₂ (fun g g' => Projective.eq g' g = true) v (batch_normalization v) ∧
      ((∀ g ∈ v, g.is_normalized = true) → batch_normalization v = v) := by
  have hspec := batch_normalization_spec v
  refine ⟨?_, ?_, ?_⟩
  · intro g' hg'
    rcases List.forall₂_iff_get.mp hspec with ⟨hlen, hget⟩
    rcases List.mem_iff_get.mp hg' with ⟨i, rfl⟩
    rcases hget i (by omega) i.isLt with h | h
    · rw [h.2]
      exact h.1
    · rw [h.2]
      rw [Projective.is_normalized_iff]
      right
      rfl
  · refine hspec.imp ?_
    rintro g g' (⟨hg, h⟩ | ⟨hg, h⟩)
    · rw [h]
      exact Projective.eq_refl g
    · rcases (Projective.is_normalized_false_iff g).mp hg with ⟨hz0, _⟩
      rw [h]
      refine (Projective.eq_true_iff one_ne_zero hz0).mpr ⟨?_, ?_⟩ <;> field_simp
  · intro hall
    unfold batch_normalization
    simp only
    have hzs : nonNormalizedZs v = [] := by
      unfold nonNormalizedZs
      rw [List.filter_eq_nil_iff.mpr fun g hg => by simp [hall g hg]]
      rfl
    rw [hzs]
    simp only [List.reverse_nil, secondPassZ, setZs_all_normalized v hall]
    have hid : ∀ g ∈ v, affineTransform g = g := by
      intro g hg
      unfold affineTransform
      rw [if_pos (hall g hg)]
    calc v.map affineTransform = v.map id := List.map_congr_left hid
      _ = v := List.map_id v

set_option maxRecDepth 4000 in
/-- Witness for C2: a batch with non-normalized, identity and normalized points
over `ZMod 5`, and the no-op case discharged on an all-normalized batch. -/
theorem batch_normalization_correct_witness :
    (∀ g ∈ batch_normalization ([⟨1, 2, 3⟩, ⟨2, 3, 0⟩, ⟨4, 1, 2⟩] : List (Projective (ZMod 5))),
        g.is_normalized = true) ∧
      batch_normalization ([⟨2, 3, 1⟩, ⟨0, 1, 0⟩] : List (Projective (ZMod 5))) =
        [⟨2, 3, 1⟩, ⟨0, 1, 0⟩] :=
  ⟨(batch_normalization_correct [⟨1, 2, 3⟩, ⟨2, 3, 0⟩, ⟨4, 1, 2⟩]).1,
    (batch_normalization_correct [⟨2, 3, 1⟩, ⟨0, 1, 0⟩]).2.2 (by decide)⟩

/-- Claim C7: the single inversion inside `batch_normalization` never fails:
the inverted value is the running product of the `Z` coordinates of the
non-normalized points, each of those is nonzero, hence the product is nonzero
and `Field::inverse` returns `Some`; when there is no non-normalized point the
inverted value is `one`.  (All other embedded operations are total Lean
functions, so they cannot fail on any input.) -/
theorem batch_normalization_unwrap_safe (v : List (Projective F)) :
    (firstPassAux 1 (nonNormalizedZs v)).2 = (nonNormalizedZs v).prod ∧
      (∀ zv ∈ nonNormalizedZs v, zv ≠ 0) ∧
      (firstPassAux 1 (nonNormalizedZs v)).2 ≠ 0 ∧
      FieldInverse ((firstPassAux 1 (nonNormalizedZs v)).2) =
        some ((firstPassAux 1 (nonNormalizedZs v)).2)⁻¹ ∧
      (nonNormalizedZs v = [] → (firstPassAux 1 (nonNormalizedZs v)).2 = 1) := by
  have hnz := nonNormalizedZs_ne_zero v
  have hprod : (firstPassAux 1 (nonNormalizedZs v)).2 ≠ 0 := by
    rw [firstPassAux_snd, one_mul]
    exact List.prod_ne_zero fun h0 => hnz 0 h0 rfl
  refine ⟨by rw [firstPassAux_snd, one_mul], hnz, hprod, ?_, ?_⟩
  · unfold FieldInverse
    rw [if_neg hprod]
  · intro h
    rw [h]
    rfl

end BatchNormalizationProofs

section Serialization

variable {F : Type} [Field F] [DecidableEq F]

/-- `ToBytes for Projective<P>`: write the `x`, then `y`, then `z` coordinate,
each via the field's little-endian byte encoding (the external collaborator
`writeF`), with no length prefix or tag. -/
def Projective.write_le (writeF : F → List Nat) (p : Projective F) : List Nat :=
  writeF p.x ++ writeF p.y ++ writeF p.z

/-- `FromBytes for Projective<P>`: read `x`, then `y`, then `z` from the byte
stream via the external field decoder `readF`, which returns the decoded value
and the remaining stream. -/
def Projective.read_le (readF : List Nat → Option (F × List Nat)) (bytes : List Nat) :
    Option (Projective F × List Nat) :=
  match readF bytes with
  | none => none
  | some (xv, r1) =>
    match readF r1 with
    | none => none
    | some (yv, r2) =>
      match readF r2 with
      | none => none
      | some (zv, r3) => some (⟨xv, yv, zv⟩, r3)

/-- Claim C8: serialization writes exactly `x`, `y`, `z` in the field's
little-endian encoding with no prefix or tag (this is the definition of
`write_le`), and deserialization inverts it: whenever the field codec
round-trips on a stream, `read_le (write_le P)` returns exactly `P` (identity
included) with the stream fully consumed. -/
theorem serialization_round_trip (writeF : F → List Nat)
    (readF : List Nat → Option (F × List Nat))
    (hcodec : ∀ (v : F) (rest : List Nat), readF (writeF v ++ rest) = some (v, rest))
    (p : Projective F) :
    Projective.read_le readF (Projective.write_le writeF p) = some (p, []) := by
  have h3 : readF (writeF p.z) = some (p.z, []) := by
    have := hcodec p.z []
    rwa [List.append_nil] at this
  unfold Projective.write_le Projective.read_le
  rw [List.append_assoc]
  simp only [hcodec, h3]

/-- A one-byte field codec for `ZMod 5`, used to discharge the codec
hypothesis of the round-trip theorem at a concrete input. -/
def byteWriteZ5 (v : ZMod 5) : List Nat :=
  [v.val]

/-- The matching one-byte decoder for `ZMod 5`. -/
def byteReadZ5 : List Nat → Option (ZMod 5 × List Nat)
  | [] => none
  | b :: rest => if b < 5 then some ((b : ZMod 5), rest) else none

lemma byteCodecZ5_round (v : ZMod 5) (rest : List Nat) :
    byteReadZ5 (byteWriteZ5 v ++ rest) = some (v, rest) := by
  show byteReadZ5 (v.val :: rest) = some (v, rest)
  simp only [byteReadZ5]
  rw [if_pos (ZMod.val_lt v)]
  rw [ZMod.natCast_val, ZMod.cast_id]

/-- Witness for C8: the codec hypothesis holds for a concrete one-byte codec
over `ZMod 5`, and the identity point round-trips under it. -/
theorem serialization_round_trip_witness :
    (∀ (v : ZMod 5) (rest : List Nat), byteReadZ5 (byteWriteZ5 v ++ rest) = some (v, rest)) ∧
      Projective.read_le byteReadZ5
          (Projective.write_le byteWriteZ5 (⟨0, 1, 0⟩ : Projective (ZMod 5))) =
        some (⟨0, 1, 0⟩, []) :=
  ⟨byteCodecZ5_round, serialization_round_trip byteWriteZ5 byteReadZ5 byteCodecZ5_round ⟨0, 1, 0⟩⟩

end Serialization

section ScalarMultiplication

variable {F : Type} [Field F] [DecidableEq F]

/-!
`Mul::mul` constants: `GLV_WINDOW_SIZE = 4`, `TABLE_SIZE = 32`,
`HALF_TABLE_SIZE = 16`, `MASK_FOR_MOD_TABLE_SIZE = 31`, `L = 8`.
The scalar field element and its big-integer representation are embedded as a
natural number; the low 64-bit limb read by `as_ref()[0]` is `e % 2^64`.
-/

/-- `mod_signed` of `Mul::mul`: mask the low limb down to the window
(`d & MASK_FOR_MOD_TABLE_SIZE`) and re-center into `[-16, 16)`. -/
def mod_signed (e : Nat) : Int :=
  let d_mod_window_size : Int := (((e % 2 ^ 64) % 32 : Nat) : Int)
  if 16 ≤ d_mod_window_size then d_mod_window_size - 32 else d_mod_window_size

/-- The odd-case body of the `to_wnaf` loop: emit the signed digit and clear it
from the running value (`add_nocarry` when the digit is negative,
`sub_noborrow` otherwise). -/
def to_wnafStep (e : Nat) : Int × Nat :=
  let naf_sign := mod_signed e
  if naf_sign < 0 then (naf_sign, e + naf_sign.natAbs) else (naf_sign, e - naf_sign.natAbs)

/-- `to_wnaf` of `Mul::mul`: while the value is nonzero, emit a signed digit
(odd case) or `0` (even case), then halve.  The `while !e.is_zero()` loop is
embedded with an explicit fuel argument; `fuel = e` always suffices because the
running value strictly decreases. -/
def to_wnafAux : Nat → Nat → List Int
  | 0, _ => []
  | fuel + 1, e =>
    if e = 0 then []
    else
      (if e % 2 = 1 then (to_wnafStep e).1 else 0) ::
        to_wnafAux fuel ((if e % 2 = 1 then (to_wnafStep e).2 else e) / 2)

def to_wnaf (e : Nat) : List Int :=
  to_wnafAux e e

/-- The `wnaf` closure of `Mul::mul`: recode both sub-scalars, negating the
first digit sequence when `s1` holds and the second when `s2` fails. -/
def wnafPair (k1 k2 : Nat) (s1 s2 : Bool) : List Int × List Int :=
  let wnaf_1 := to_wnaf k1
  let wnaf_2 := to_wnaf k2
  (if s1 then wnaf_1.map (fun d => -d) else wnaf_1,
    if !s2 then wnaf_2.map (fun d => -d) else wnaf_2)

/-- `naf_add` of `Mul::mul`: when the digit is nonzero, look up
`table[(naf.abs() >> 1)]`, negate the entry when the digit is negative, and
mixed-add it into the accumulator.  (The table access is in bounds — claim C9 —
so the out-of-range default of `getD` is never consulted.) -/
def naf_add (aW : F) (table : List (AffinePoint F)) (naf : Int) (acc : Projective F) :
    Projective F :=
  if naf ≠ 0 then
    let p_1 := table.getD (naf.natAbs >>> 1) ⟨0, 1, true⟩
    let p_2 := if naf < 0 then p_1.neg else p_1
    Projective.add_assign_mixed aW acc p_2
  else acc

/-- Table construction of `Mul::mul`: `for i in 1..L
{ t_1.push(t_1[i - 1].add_mixed(&double)) }`. -/
def tableAux (aW : F) (dbl : AffinePoint F) : Nat → Projective F → List (Projective F)
  | 0, _ => []
  | n + 1, prev =>
    let next := Projective.add_mixed aW prev dbl
    next :: tableAux aW dbl n next

/-- The projective table `t_1 = [P, P + 2P, P + 4P, …]` of length `L = 8`
before batch normalization: `t_1.push(self)` followed by seven mixed additions
of `Affine::from(self.double())`. -/
def glvTableT1 (aW : F) (p : Projective F) : List (Projective F) :=
  p :: tableAux aW ((Projective.double aW p).to_affine) 7 p

/-- The main loop of `Mul::mul`: `for i in (0..max_len).rev()`, adding the
looked-up contributions of both digit sequences at each position and doubling
the accumulator between positions (`if i != 0`).  The counter is the number of
digit positions left to process. -/
def mulLoop (aW : F) (t_1 t_2 : List (AffinePoint F)) (naf_1 naf_2 : List Int) :
    Nat → Projective F → Projective F
  | 0, acc => acc
  | i + 1, acc =>
    let acc1 := if i < naf_1.length then naf_add aW t_1 (naf_1.getD i 0) acc else acc
    let acc2 := if i < naf_2.length then naf_add aW t_2 (naf_2.getD i 0) acc1 else acc1
    let acc3 := if i ≠ 0 then Projective.double aW acc2 else acc2
    mulLoop aW t_1 t_2 naf_1 naf_2 i acc3

/-- `Mul::mul`: GLV + wNAF scalar multiplication.  The scalar is embedded as a
natural number `k`; the external collaborators are the GLV decomposition
`decompose` (returning `(k1, k2, s1, s2)`) and the curve endomorphism `glv` on
affine points. -/
def Projective.mul (aW : F) (glv : AffinePoint F → AffinePoint F)
    (decompose : Nat → Nat × Nat × Bool × Bool) (p : Projective F) (k : Nat) :
    Projective F :=
  let decomposition := decompose k
  -- Prepare tables.
  let t_1 := batch_normalization_into_affine (glvTableT1 aW p)
  let t_2 := t_1.map glv
  -- Recode scalars.
  let nafs := wnafPair decomposition.1 decomposition.2.1 decomposition.2.2.1 decomposition.2.2.2
  let max_len := max nafs.1.length nafs.2.length
  mulLoop aW t_1 t_2 nafs.1 nafs.2 max_len Projective.zero

/-- The specification's reference semantics for claim C1: naive double-and-add
of the un-decomposed scalar, built from the code's own `double` and `add`
(a spec-side definition, with an explicit fuel argument; `fuel = k`
suffices). -/
def naiveMulAux (aW : F) (p : Projective F) : Nat → Nat → Projective F
  | 0, _ => Projective.zero
  | fuel + 1, k =>
    if k = 0 then Projective.zero
    else
      let hd := Projective.double aW (naiveMulAux aW p fuel (k / 2))
      if k % 2 = 1 then Projective.add aW hd p else hd

/-- Naive double-and-add scalar multiplication (reference for C1). -/
def naiveMul (aW : F) (k : Nat) (p : Projective F) : Projective F :=
  naiveMulAux aW p k k

end ScalarMultiplication

section WnafProofs

lemma to_wnafStep_fst (e : Nat) : (to_wnafStep e).1 = mod_signed e := by
  simp only [to_wnafStep]
  split_ifs <;> rfl

lemma mod_signed_spec (e : Nat) (he : e % 2 = 1) :
    (mod_signed e).natAbs % 2 = 1 ∧ (mod_signed e).natAbs ≤ 15 := by
  unfold mod_signed
  have h64 : e % 2 ^ 64 % 2 = e % 2 := Nat.mod_mod_of_dvd e (by norm_num)
  have hm2 : (e % 2 ^ 64) % 32 % 2 = 1 := by
    rw [Nat.mod_mod_of_dvd _ (by norm_num : (2 : ℕ) ∣ 32), h64, he]
  have hm32 : (e % 2 ^ 64) % 32 < 32 := Nat.mod_lt _ (by norm_num)
  simp only
  by_cases h : (16 : Int) ≤ (((e % 2 ^ 64) % 32 : Nat) : Int)
  · rw [if_pos h]
    constructor <;> omega
  · rw [if_neg h]
    constructor <;> omega

lemma to_wnafAux_digits (fuel : Nat) :
    ∀ (e : Nat), ∀ d ∈ to_wnafAux fuel e, d = 0 ∨ (d.natAbs % 2 = 1 ∧ d.natAbs ≤ 15) := by
  induction fuel with
  | zero =>
    intro e d hd
    simp [to_wnafAux] at hd
  | succ n ih =>
    intro e d hd
    unfold to_wnafAux at hd
    by_cases he : e = 0
    · rw [if_pos he] at hd
      simp at hd
    · rw [if_neg he] at hd
      rcases List.mem_cons.mp hd with hd | hd
      · by_cases hpar : e % 2 = 1
        · rw [hd, if_pos hpar, to_wnafStep_fst]
          exact Or.inr (mod_signed_spec e hpar)
        · rw [hd, if_neg hpar]
          exact Or.inl rfl
      · exact ih _ d hd

lemma tableAux_length {F : Type} [Field F] [DecidableEq F]
    (aW : F) (dbl : AffinePoint F) (n : Nat) (prev : Projective F) :
    (tableAux aW dbl n prev).length = n := by
  induction n generalizing prev with
  | zero => rfl
  | succ m ih =>
    unfold tableAux
    simp [ih]

lemma batch_normalization_length {F : Type} [Field F] [DecidableEq F]
    (v : List (Projective F)) : (batch_normalization v).length = v.length :=
  (batch_normalization_spec v).length_eq.symm

lemma glvTable_length {F : Type} [Field F] [DecidableEq F] (aW : F) (p : Projective F) :
    (batch_normalization_into_affine (glvTableT1 aW p)).length = 8 := by
  unfold batch_normalization_into_affine
  rw [List.length_map, batch_normalization_length]
  unfold glvTableT1
  rw [List.length_cons, tableAux_length]

/-- Claim C9: every digit produced by the wNAF recoding is `0` or an odd
integer of magnitude at most `15`; consequently the table index
`|digit| >> 1` of `naf_add` is below the table length `L = 8`, so the table
lookup never goes out of bounds. -/
theorem wnaf_digits_in_range {F : Type} [Field F] [DecidableEq F]
    (aW : F) (p : Projective F) (e : Nat) :
    (∀ d ∈ to_wnaf e, d = 0 ∨ (d.natAbs % 2 = 1 ∧ d.natAbs ≤ 15)) ∧
      (batch_normalization_into_affine (glvTableT1 aW p)).length = 8 ∧
      (∀ d ∈ to_wnaf e, d ≠ 0 →
        d.natAbs >>> 1 < (batch_normalization_into_affine (glvTableT1 aW p)).length) := by
  refine ⟨to_wnafAux_digits e e, glvTable_length aW p, ?_⟩
  intro d hd hd0
  rw [glvTable_length aW p]
  rcases to_wnafAux_digits e e d hd with h | h
  · exact absurd h hd0
  · rw [Nat.shiftRight_eq_div_pow, pow_one]
    omega

/-- Witness for C9: the digit `7` of `to_wnaf 7` over the concrete table for
`P = (1, 2, 3)` on `ZMod 5`. -/
theorem wnaf_digits_in_range_witness :
    ((7 : Int) = 0 ∨ ((7 : Int).natAbs % 2 = 1 ∧ (7 : Int).natAbs ≤ 15)) ∧
      ((7 : Int) ≠ 0 →
        (7 : Int).natAbs >>> 1 <
          (batch_normalization_into_affine
              (glvTableT1 (1 : ZMod 5) ⟨1, 2, 3⟩)).length) :=
  ⟨(wnaf_digits_in_range (1 : ZMod 5) ⟨1, 2, 3⟩ 7).1 7 (by decide),
    (wnaf_digits_in_range (1 : ZMod 5) ⟨1, 2, 3⟩ 7).2.2 7 (by decide)⟩

end WnafProofs

section CurveSemantics

open WeierstrassCurve.Jacobian

variable {F : Type} [Field F] [DecidableEq F]

/-- The short Weierstrass curve `y² = x³ + a·x + b` underlying the embedded
operations (semantic layer; the `b` coefficient never appears in the code, so
all semantic statements quantify over it). -/
def shortW (aW bW : F) : WeierstrassCurve F :=
  ⟨0, 0, 0, aW, bW⟩

/-- The coordinate triple of an embedded point, as a Mathlib Jacobian point
representative. -/
def toFin3 (p : Projective F) : Fin 3 → F :=
  ![p.x, p.y, p.z]

@[simp] lemma toFin3_x (p : Projective F) : toFin3 p 0 = p.x := rfl

@[simp] lemma toFin3_y (p : Projective F) : toFin3 p 1 = p.y := rfl

@[simp] lemma toFin3_z (p : Projective F) : toFin3 p 2 = p.z := rfl

/-- The code's `double` computes exactly Mathlib's Jacobian doubling formula
`dblXYZ` whenever the input is not the `Z = 0` early-out, under both the
`a = 0` and the `a ≠ 0` formula branches. -/
lemma double_toFin3 (aW bW : F) (p : Projective F) (hz : p.z ≠ 0) :
    toFin3 (Projective.double aW p) = dblXYZ (shortW aW bW) (toFin3 p) := by
  have hz' : ¬(p.is_zero = true) := by simp [Projective.is_zero, hz]
  unfold Projective.double
  rw [if_neg hz']
  by_cases ha : aW = 0
  · rw [if_pos ha]
    subst ha
    funext i
    fin_cases i <;>
      simp only [toFin3, dblXYZ, dblX, dblY, dblZ, dblU_eq, negY, negDblY, shortW,
        Matrix.cons_val_zero, Matrix.cons_val_one, Matrix.head_cons, Matrix.cons_val_two,
        Matrix.tail_cons, Fin.isValue] <;>
      ring
  · rw [if_neg ha]
    funext i
    fin_cases i <;>
      simp only [toFin3, dblXYZ, dblX, dblY, dblZ, dblU_eq, negY, negDblY, shortW,
        Matrix.cons_val_zero, Matrix.cons_val_one, Matrix.head_cons, Matrix.cons_val_two,
        Matrix.tail_cons, Fin.isValue] <;>
      ring

/-- Validity of an embedded point: it is the code's point at infinity
(`Z = 0`, any `X`, `Y`) or a nonsingular representative of the curve. -/
def Valid (aW bW : F) (p : Projective F) : Prop :=
  p.z = 0 ∨ WeierstrassCurve.Jacobian.Nonsingular (shortW aW bW) (toFin3 p)

instance equationDecidable (W' : WeierstrassCurve F) (P : Fin 3 → F) :
    Decidable (WeierstrassCurve.Jacobian.Equation W' P) :=
  decidable_of_iff _ (WeierstrassCurve.Jacobian.equation_iff P).symm

instance nonsingularDecidable (W' : WeierstrassCurve F) (P : Fin 3 → F) :
    Decidable (WeierstrassCurve.Jacobian.Nonsingular W' P) :=
  decidable_of_iff _ (WeierstrassCurve.Jacobian.nonsingular_iff P).symm

instance validDecidable (aW bW : F) (p : Projective F) : Decidable (Valid aW bW p) := by
  unfold Valid
  infer_instance

/-- The group-element semantics of an embedded point: the corresponding
nonsingular rational point of the curve in affine coordinates (zero for the
`Z = 0` triples). -/
noncomputable def toPoint (aW bW : F) (p : Projective F) :
    (shortW aW bW).toAffine.Point :=
  Point.toAffine (shortW aW bW) (toFin3 p)

lemma toPoint_of_z_zero (aW bW : F) {p : Projective F} (hz : p.z = 0) :
    toPoint aW bW p = 0 :=
  Point.toAffine_of_Z_eq_zero (by simpa using hz)

lemma valid_nonsingular {aW bW : F} {p : Projective F} (hp : Valid aW bW p)
    (hz : p.z ≠ 0) : WeierstrassCurve.Jacobian.Nonsingular (shortW aW bW) (toFin3 p) := by
  rcases hp with h | h
  · exact absurd h hz
  · exact h

lemma valid_zero (aW bW : F) : Valid aW bW (Projective.zero : Projective F) :=
  Or.inl rfl

/-- Semantics of `double`: it adds the point to itself and preserves
validity. -/
lemma toPoint_double (aW bW : F) (p : Projective F) (hp : Valid aW bW p) :
    toPoint aW bW (Projective.double aW p) = toPoint aW bW p + toPoint aW bW p ∧
      Valid aW bW (Projective.double aW p) := by
  by_cases hz : p.z = 0
  · have hd : Projective.double aW p = p := by
      unfold Projective.double
      rw [if_pos (by simp [Projective.is_zero, hz])]
    rw [hd, toPoint_of_z_zero aW bW hz, add_zero]
    exact ⟨rfl, hp⟩
  · have hP := valid_nonsingular hp hz
    have hcoord := double_toFin3 aW bW p hz
    have hadd : dblXYZ (shortW aW bW) (toFin3 p) =
        WeierstrassCurve.Jacobian.add (shortW aW bW) (toFin3 p) (toFin3 p) :=
      (add_self (toFin3 p)).symm
    constructor
    · show Point.toAffine _ (toFin3 (Projective.double aW p)) = _
      rw [hcoord, hadd]
      exact Point.toAffine_add hP hP
    · right
      rw [hcoord, hadd]
      exact nonsingular_add hP hP

/-- The code's `neg` computes Mathlib's Jacobian negation whenever `Z ≠ 0`. -/
lemma neg_toFin3 (aW bW : F) (p : Projective F) (hz : p.z ≠ 0) :
    toFin3 (Projective.neg p) = WeierstrassCurve.Jacobian.neg (shortW aW bW) (toFin3 p) := by
  unfold Projective.neg
  rw [if_pos (by simp [Projective.is_zero, hz])]
  funext i
  fin_cases i <;>
    simp only [toFin3, WeierstrassCurve.Jacobian.neg, negY, shortW, Matrix.cons_val_zero,
      Matrix.cons_val_one, Matrix.head_cons, Matrix.cons_val_two, Matrix.tail_cons,
      Fin.isValue] <;>
    ring

lemma fin3_ext {α : Type} {P Q : Fin 3 → α} (h0 : P 0 = Q 0) (h1 : P 1 = Q 1)
    (h2 : P 2 = Q 2) : P = Q := by
  funext i
  fin_cases i
  · exact h0
  · exact h1
  · exact h2

/-- The code's dispatch condition of the general addition (`U1 == U2 &&
S1 == S2`) is exactly Mathlib's point-representative equivalence when both `Z`
coordinates are nonzero. -/
lemma dispatch_iff_equiv (p q : Projective F) (hpz : p.z ≠ 0) (hqz : q.z ≠ 0) :
    (p.x * (q.z * q.z) = q.x * (p.z * p.z) ∧
        p.y * q.z * (q.z * q.z) = q.y * p.z * (p.z * p.z)) ↔
      toFin3 p ≈ toFin3 q := by
  constructor
  · rintro ⟨hx, hy⟩
    refine equiv_of_X_eq_of_Y_eq (by simpa using hpz) (by simpa using hqz) ?_ ?_
    · show toFin3 p 0 * toFin3 q 2 ^ 2 = toFin3 q 0 * toFin3 p 2 ^ 2
      simp only [toFin3_x, toFin3_z]
      linear_combination hx
    · show toFin3 p 1 * toFin3 q 2 ^ 3 = toFin3 q 1 * toFin3 p 2 ^ 3
      simp only [toFin3_y, toFin3_z]
      linear_combination hy
  · intro h
    have hx := X_eq_of_equiv h
    have hy := Y_eq_of_equiv h
    simp only [toFin3_x, toFin3_y, toFin3_z] at hx hy
    exact ⟨by linear_combination hx, by linear_combination hy⟩

/-- The non-dispatch branch of the code's general addition computes a scalar
multiple (by the unit `-2·Z1·Z2`) of Mathlib's Jacobian addition formula
`addXYZ`, given that both points lie on the curve. -/
lemma add_toFin3 (aW bW : F) (p q : Projective F)
    (hp : Equation (shortW aW bW) (toFin3 p))
    (hq : Equation (shortW aW bW) (toFin3 q))
    (hpz : p.z ≠ 0) (hqz : q.z ≠ 0)
    (hdisp : ¬(p.x * (q.z * q.z) = q.x * (p.z * p.z) ∧
        p.y * q.z * (q.z * q.z) = q.y * p.z * (p.z * p.z))) :
    toFin3 (Projective.add aW p q) =
      (-(2 * p.z * q.z)) • addXYZ (shortW aW bW) (toFin3 p) (toFin3 q) := by
  have hp' : ¬(p.is_zero = true) := by simp [Projective.is_zero, hpz]
  have hq' : ¬(q.is_zero = true) := by simp [Projective.is_zero, hqz]
  unfold Projective.add
  rw [if_neg hp', if_neg hq', if_neg hdisp]
  have hX := addX_eq' hp hq
  have hY : negAddY (shortW aW bW) (toFin3 p) (toFin3 q) * (toFin3 p 2 * toFin3 q 2) ^ 3 =
      (toFin3 p 1 * toFin3 q 2 ^ 3 - toFin3 q 1 * toFin3 p 2 ^ 3) *
          (addX (shortW aW bW) (toFin3 p) (toFin3 q) * (toFin3 p 2 * toFin3 q 2) ^ 2
            - toFin3 p 0 * toFin3 q 2 ^ 2 * addZ (toFin3 p) (toFin3 q) ^ 2)
        + toFin3 p 1 * toFin3 q 2 ^ 3 * addZ (toFin3 p) (toFin3 q) ^ 3 := negAddY_eq'
  simp only [addZ, toFin3_x, toFin3_y, toFin3_z, shortW] at hX hY
  unfold toFin3 at hX hY
  rw [smul_fin3]
  refine fin3_ext ?_ ?_ ?_
  · simp only [toFin3, addXYZ, addZ, shortW, Matrix.cons_val_zero, Matrix.cons_val_one,
      Matrix.head_cons, Matrix.cons_val_two, Matrix.tail_cons, Fin.isValue, Fin.zero_eta]
    linear_combination (-4 : F) * hX
  · simp only [toFin3, addXYZ, WeierstrassCurve.Jacobian.addY, negY, addZ, shortW,
      Matrix.cons_val_zero, Matrix.cons_val_one, Matrix.head_cons, Matrix.cons_val_two,
      Matrix.tail_cons, Fin.isValue, Fin.mk_one]
    linear_combination (-8 : F) * hY +
      (-8 : F) * (p.y * q.z ^ 3 - q.y * p.z ^ 3) * hX
  · simp only [toFin3, addXYZ, addZ, shortW, Matrix.cons_val_zero, Matrix.cons_val_one,
      Matrix.head_cons, Matrix.cons_val_two, Matrix.tail_cons, Fin.isValue]
    ring

/-- Semantics of `neg`: group negation, preserving validity. -/
lemma toPoint_neg (aW bW : F) (p : Projective F) (hp : Valid aW bW p) :
    toPoint aW bW (Projective.neg p) = -toPoint aW bW p ∧
      Valid aW bW (Projective.neg p) := by
  by_cases hz : p.z = 0
  · have hd : Projective.neg p = p := by
      unfold Projective.neg
      rw [if_neg (by simp [Projective.is_zero, hz])]
    rw [hd, toPoint_of_z_zero aW bW hz, neg_zero]
    exact ⟨rfl, hp⟩
  · have hP := valid_nonsingular hp hz
    have hcoord := neg_toFin3 aW bW p hz
    constructor
    · show Point.toAffine _ (toFin3 (Projective.neg p)) = _
      rw [hcoord]
      exact Point.toAffine_neg hP
    · right
      rw [hcoord]
      exact nonsingular_neg hP

/-- Semantics of the general addition: group addition, preserving validity. -/
lemma toPoint_add (aW bW : F) (h2 : (2 : F) ≠ 0) (p q : Projective F)
    (hp : Valid aW bW p) (hq : Valid aW bW q) :
    toPoint aW bW (Projective.add aW p q) = toPoint aW bW p + toPoint aW bW q ∧
      Valid aW bW (Projective.add aW p q) := by
  by_cases hpz : p.z = 0
  · have hc : Projective.add aW p q = q := by
      unfold Projective.add
      rw [if_pos (by simp [Projective.is_zero, hpz])]
    rw [hc, toPoint_of_z_zero aW bW hpz, zero_add]
    exact ⟨rfl, hq⟩
  · by_cases hqz : q.z = 0
    · have hc : Projective.add aW p q = p := by
        unfold Projective.add
        rw [if_neg (by simp [Projective.is_zero, hpz]),
          if_pos (by simp [Projective.is_zero, hqz])]
      rw [hc, toPoint_of_z_zero aW bW hqz, add_zero]
      exact ⟨rfl, hp⟩
    · have hP := valid_nonsingular hp hpz
      have hQ := valid_nonsingular hq hqz
      by_cases hD : p.x * (q.z * q.z) = q.x * (p.z * p.z) ∧
          p.y * q.z * (q.z * q.z) = q.y * p.z * (p.z * p.z)
      · have hc : Projective.add aW p q = Projective.double aW p := by
          unfold Projective.add
          rw [if_neg (by simp [Projective.is_zero, hpz]),
            if_neg (by simp [Projective.is_zero, hqz])]
          exact if_pos hD
        have hpq : toPoint aW bW q = toPoint aW bW p :=
          (Point.toAffine_of_equiv ((dispatch_iff_equiv p q hpz hqz).mp hD)).symm
        rcases toPoint_double aW bW p hp with ⟨hdd, hdv⟩
        rw [hc, hdd, hpq]
        exact ⟨rfl, hdv⟩
      · have hcoord := add_toFin3 aW bW p q hP.left hQ.left hpz hqz hD
        have hu : IsUnit (-(2 * p.z * q.z)) := by
          refine Ne.isUnit ?_
          simp only [ne_eq, neg_eq_zero]
          exact mul_ne_zero (mul_ne_zero h2 hpz) hqz
        have hne : ¬(toFin3 p ≈ toFin3 q) := fun h =>
          hD ((dispatch_iff_equiv p q hpz hqz).mpr h)
        have hWadd : addXYZ (shortW aW bW) (toFin3 p) (toFin3 q) =
            WeierstrassCurve.Jacobian.add (shortW aW bW) (toFin3 p) (toFin3 q) :=
          (add_of_not_equiv hne).symm
        constructor
        · show Point.toAffine _ (toFin3 (Projective.add aW p q)) = _
          rw [hcoord, Point.toAffine_smul _ hu, hWadd, Point.toAffine_add hP hQ]
          rfl
        · right
          rw [hcoord, nonsingular_smul _ hu, hWadd]
          exact nonsingular_add hP hQ

/-- Validity of an affine point: its projective lift is valid. -/
def ValidA (aW bW : F) (q : AffinePoint F) : Prop :=
  Valid aW bW (Projective.fromAffine q)

/-- Semantics of an affine point: the group element of its projective lift. -/
noncomputable def toPointA (aW bW : F) (q : AffinePoint F) :
    (shortW aW bW).toAffine.Point :=
  toPoint aW bW (Projective.fromAffine q)

lemma fromAffine_infinity {q : AffinePoint F} (h : q.infinity = true) :
    Projective.fromAffine q = Projective.zero := by
  unfold Projective.fromAffine
  rw [if_pos (by simp [AffinePoint.is_zero, h])]

lemma fromAffine_finite {q : AffinePoint F} (h : q.infinity = false) :
    Projective.fromAffine q = ⟨q.x, q.y, 1⟩ := by
  unfold Projective.fromAffine
  rw [if_neg (by simp [AffinePoint.is_zero, h])]

/-- Semantics of the external projective-to-affine conversion: the group
element and validity are preserved. -/
lemma toPoint_to_affine (aW bW : F) (p : Projective F) (hp : Valid aW bW p) :
    ValidA aW bW p.to_affine ∧ toPointA aW bW p.to_affine = toPoint aW bW p := by
  by_cases hz : p.z = 0
  · have hc : p.to_affine = ⟨0, 1, true⟩ := by
      unfold Projective.to_affine
      rw [if_pos (by simp [Projective.is_zero, hz])]
    constructor
    · unfold ValidA
      rw [hc, fromAffine_infinity rfl]
      exact valid_zero aW bW
    · unfold toPointA
      rw [hc, fromAffine_infinity rfl, toPoint_of_z_zero aW bW rfl,
        toPoint_of_z_zero aW bW hz]
  · have hc : p.to_affine = ⟨p.x / (p.z * p.z), p.y / (p.z * p.z * p.z), false⟩ := by
      unfold Projective.to_affine
      rw [if_neg (by simp [Projective.is_zero, hz])]
    have hvec : toFin3 (Projective.fromAffine p.to_affine) =
        ![toFin3 p 0 / toFin3 p 2 ^ 2, toFin3 p 1 / toFin3 p 2 ^ 3, 1] := by
      rw [hc, fromAffine_finite rfl]
      refine fin3_ext ?_ ?_ ?_ <;>
        simp only [toFin3, Matrix.cons_val_zero, Matrix.cons_val_one, Matrix.head_cons,
          Matrix.cons_val_two, Matrix.tail_cons] <;>
        ring_nf
    have hequiv : toFin3 (Projective.fromAffine p.to_affine) ≈ toFin3 p := by
      rw [hvec]
      exact Setoid.symm (equiv_some_of_Z_ne_zero (by simpa using hz))
    constructor
    · exact Or.inr ((nonsingular_of_equiv hequiv).mpr (valid_nonsingular hp hz))
    · exact Point.toAffine_of_equiv hequiv

/-- Semantics of mixed addition: group addition of the affine operand's
lift, preserving validity. -/
lemma toPoint_add_mixed (aW bW : F) (h2 : (2 : F) ≠ 0) (p : Projective F)
    (qa : AffinePoint F) (hp : Valid aW bW p) (hq : ValidA aW bW qa) :
    toPoint aW bW (Projective.add_assign_mixed aW p qa) =
        toPoint aW bW p + toPointA aW bW qa ∧
      Valid aW bW (Projective.add_assign_mixed aW p qa) := by
  by_cases hqi : qa.infinity = true
  · have hc : Projective.add_assign_mixed aW p qa = p := by
      unfold Projective.add_assign_mixed
      rw [if_pos (by simp [AffinePoint.is_zero, hqi])]
    have hz : toPointA aW bW qa = 0 := by
      unfold toPointA
      rw [fromAffine_infinity hqi]
      exact toPoint_of_z_zero aW bW rfl
    rw [hc, hz, add_zero]
    exact ⟨rfl, hp⟩
  · have hqi' : qa.infinity = false := by simpa using hqi
    by_cases hpz : p.z = 0
    · have hc : Projective.add_assign_mixed aW p qa = ⟨qa.x, qa.y, 1⟩ := by
        unfold Projective.add_assign_mixed
        rw [if_neg (by simp [AffinePoint.is_zero, hqi']),
          if_pos (by simp [Projective.is_zero, hpz])]
      rw [hc, toPoint_of_z_zero aW bW hpz, zero_add, ← fromAffine_finite hqi']
      exact ⟨rfl, hq⟩
    · rw [Projective.add_assign_mixed_eq_general (by simp [Projective.is_zero, hpz])
        (by simp [AffinePoint.is_zero, hqi'])]
      exact toPoint_add aW bW h2 p (Projective.fromAffine qa) hp hq

/-- Semantics of the external affine negation. -/
lemma toPointA_neg (aW bW : F) (qa : AffinePoint F) (hq : ValidA aW bW qa) :
    toPointA aW bW qa.neg = -toPointA aW bW qa ∧ ValidA aW bW qa.neg := by
  by_cases hqi : qa.infinity = true
  · have h1 : qa.neg.infinity = true := by simp [AffinePoint.neg, hqi]
    have e1 : toPointA aW bW qa.neg = 0 := by
      unfold toPointA
      rw [fromAffine_infinity h1]
      exact toPoint_of_z_zero aW bW rfl
    have e2 : toPointA aW bW qa = 0 := by
      unfold toPointA
      rw [fromAffine_infinity hqi]
      exact toPoint_of_z_zero aW bW rfl
    refine ⟨by rw [e1, e2, neg_zero], ?_⟩
    unfold ValidA
    rw [fromAffine_infinity h1]
    exact valid_zero aW bW
  · have hqi' : qa.infinity = false := by simpa using hqi
    have h1 : qa.neg.infinity = false := by simp [AffinePoint.neg, hqi']
    have hc : Projective.fromAffine qa.neg = Projective.neg (Projective.fromAffine qa) := by
      rw [fromAffine_finite h1, fromAffine_finite hqi']
      unfold Projective.neg
      rw [if_pos (by simp [Projective.is_zero])]
      rfl
    unfold toPointA ValidA
    rw [hc]
    exact toPoint_neg aW bW (Projective.fromAffine qa) hq

/-- The code's equality test agrees with the group-element semantics on valid
points. -/
lemma eq_iff_toPoint (aW bW : F) (p q : Projective F)
    (hp : Valid aW bW p) (hq : Valid aW bW q) :
    Projective.eq p q = true ↔ toPoint aW bW p = toPoint aW bW q := by
  by_cases hpz : p.z = 0
  · rw [Projective.eq_iff_of_left_zero q hpz, toPoint_of_z_zero aW bW hpz]
    constructor
    · intro h
      rw [toPoint_of_z_zero aW bW h]
    · intro h
      by_contra hqz
      have hQ := valid_nonsingular hq hqz
      rw [show toPoint aW bW q = Point.toAffine _ (toFin3 q) from rfl,
        Point.toAffine_of_Z_ne_zero hQ (by simpa using hqz)] at h
      exact WeierstrassCurve.Affine.Point.some_ne_zero _ h.symm
  · by_cases hqz : q.z = 0
    · rw [Projective.eq_false_of_right_zero hpz hqz]
      simp only [Bool.false_eq_true, false_iff]
      intro h
      rw [toPoint_of_z_zero aW bW hqz] at h
      have hP := valid_nonsingular hp hpz
      rw [show toPoint aW bW p = Point.toAffine _ (toFin3 p) from rfl,
        Point.toAffine_of_Z_ne_zero hP (by simpa using hpz)] at h
      exact WeierstrassCurve.Affine.Point.some_ne_zero _ h
    · have hP := valid_nonsingular hp hpz
      have hQ := valid_nonsingular hq hqz
      rw [Projective.eq_true_iff hpz hqz]
      constructor
      · intro h
        refine Point.toAffine_of_equiv ((dispatch_iff_equiv p q hpz hqz).mp ⟨h.1, ?_⟩)
        linear_combination h.2
      · intro h
        rw [show toPoint aW bW p = Point.toAffine _ (toFin3 p) from rfl,
          Point.toAffine_of_Z_ne_zero hP (by simpa using hpz),
          show toPoint aW bW q = Point.toAffine _ (toFin3 q) from rfl,
          Point.toAffine_of_Z_ne_zero hQ (by simpa using hqz)] at h
        rw [WeierstrassCurve.Affine.Point.some.injEq] at h
        have hx := (X_eq_iff (by simpa using hpz) (by simpa using hqz)).mpr h.1
        have hy := (Y_eq_iff (by simpa using hpz) (by simpa using hqz)).mpr h.2
        simp only [toFin3_x, toFin3_y, toFin3_z] at hx hy
        exact ⟨by linear_combination hx, by linear_combination hy⟩

/-- Validity transfers along the code's equality. -/
lemma valid_of_eq (aW bW : F) {p q : Projective F} (h : Projective.eq p q = true)
    (hq : Valid aW bW q) : Valid aW bW p := by
  by_cases hpz : p.z = 0
  · exact Or.inl hpz
  · by_cases hqz : q.z = 0
    · rw [Projective.eq_false_of_right_zero hpz hqz] at h
      exact absurd h (by simp)
    · rcases (Projective.eq_true_iff hpz hqz).mp h with ⟨hx, hy⟩
      have hequiv : toFin3 p ≈ toFin3 q :=
        (dispatch_iff_equiv p q hpz hqz).mp ⟨hx, by linear_combination hy⟩
      exact Or.inr ((nonsingular_of_equiv hequiv).mpr (valid_nonsingular hq hqz))

/-- Semantics of the reference naive double-and-add: it computes the integer
scalar multiple in the curve group, preserving validity. -/
lemma toPoint_naiveMulAux (aW bW : F) (h2 : (2 : F) ≠ 0) (p : Projective F)
    (hp : Valid aW bW p) :
    ∀ fuel k, k ≤ fuel →
      toPoint aW bW (naiveMulAux aW p fuel k) = (k : ℤ) • toPoint aW bW p ∧
        Valid aW bW (naiveMulAux aW p fuel k) := by
  intro fuel
  induction fuel with
  | zero =>
    intro k hk
    have hk0 : k = 0 := by omega
    subst hk0
    refine ⟨?_, valid_zero aW bW⟩
    rw [show naiveMulAux aW p 0 0 = Projective.zero from rfl,
      toPoint_of_z_zero aW bW rfl]
    simp
  | succ n ih =>
    intro k hk
    by_cases hk0 : k = 0
    · subst hk0
      unfold naiveMulAux
      rw [if_pos rfl]
      refine ⟨?_, valid_zero aW bW⟩
      rw [toPoint_of_z_zero aW bW rfl]
      simp
    · unfold naiveMulAux
      rw [if_neg hk0]
      have hrec := ih (k / 2) (by omega)
      rcases toPoint_double aW bW (naiveMulAux aW p n (k / 2)) hrec.2 with ⟨hd, hdv⟩
      by_cases hpar : k % 2 = 1
      · rw [if_pos hpar]
        rcases toPoint_add aW bW h2 _ p hdv hp with ⟨ha, hav⟩
        refine ⟨?_, hav⟩
        rw [ha, hd, hrec.1]
        have hcast : (k : ℤ) = ((k / 2 : Nat) : ℤ) + ((k / 2 : Nat) : ℤ) + 1 := by omega
        rw [hcast, add_zsmul, add_zsmul, one_zsmul]
      · rw [if_neg hpar]
        refine ⟨?_, hdv⟩
        rw [hd, hrec.1]
        have hcast : (k : ℤ) = ((k / 2 : Nat) : ℤ) + ((k / 2 : Nat) : ℤ) := by omega
        rw [hcast, add_zsmul]

/-- Semantics of `naiveMul`. -/
lemma toPoint_naiveMul (aW bW : F) (h2 : (2 : F) ≠ 0) (p : Projective F)
    (hp : Valid aW bW p) (k : Nat) :
    toPoint aW bW (naiveMul aW k p) = (k : ℤ) • toPoint aW bW p ∧
      Valid aW bW (naiveMul aW k p) :=
  toPoint_naiveMulAux aW bW h2 p hp k k le_rfl

end CurveSemantics

section WnafValue

/-- The integer value of a little-endian signed-digit string. -/
def wnafVal : List Int → Int
  | [] => 0
  | d :: t => d + 2 * wnafVal t

lemma wnafVal_map_neg (l : List Int) : wnafVal (l.map fun d => -d) = -wnafVal l := by
  induction l with
  | nil => rfl
  | cons d t ih =>
    simp only [List.map_cons, wnafVal, ih]
    ring

lemma mod_signed_val (e : Nat) :
    (e % 32 < 16 ∧ mod_signed e = ((e % 32 : Nat) : ℤ)) ∨
      (16 ≤ e % 32 ∧ mod_signed e = ((e % 32 : Nat) : ℤ) - 32) := by
  unfold mod_signed
  simp only
  have h32 : (e % 2 ^ 64) % 32 = e % 32 := Nat.mod_mod_of_dvd e ⟨2 ^ 59, by norm_num⟩
  rw [h32]
  by_cases h : (16 : ℤ) ≤ ((e % 32 : Nat) : ℤ)
  · rw [if_pos h]
    exact Or.inr ⟨by exact_mod_cast h, rfl⟩
  · rw [if_neg h]
    exact Or.inl ⟨by omega, rfl⟩

/-- The wNAF recoding represents its input: evaluating the digit string
little-endian gives back the scalar. -/
lemma to_wnafAux_val : ∀ fuel e, e ≤ fuel → wnafVal (to_wnafAux fuel e) = e := by
  intro fuel
  induction fuel with
  | zero =>
    intro e he
    have he0 : e = 0 := by omega
    subst he0
    rfl
  | succ n ih =>
    intro e he
    unfold to_wnafAux
    by_cases he0 : e = 0
    · rw [if_pos he0, he0]
      rfl
    · rw [if_neg he0]
      by_cases hpar : e % 2 = 1
      · simp only [if_pos hpar, wnafVal, to_wnafStep_fst]
        have hm := mod_signed_val e
        have hmod : e % 32 ≤ e := Nat.mod_le e 32
        have hmod32 : e % 32 < 32 := Nat.mod_lt _ (by norm_num)
        have hmod2 : e % 32 % 2 = e % 2 := Nat.mod_mod_of_dvd e (by norm_num)
        by_cases hneg : mod_signed e < 0
        · have hstep : (to_wnafStep e).2 = e + (mod_signed e).natAbs := by
            simp only [to_wnafStep]
            rw [if_pos hneg]
          rw [hstep]
          have hfuel : (e + (mod_signed e).natAbs) / 2 ≤ n := by omega
          rw [ih _ hfuel]
          omega
        · have hstep : (to_wnafStep e).2 = e - (mod_signed e).natAbs := by
            simp only [to_wnafStep]
            rw [if_neg hneg]
          rw [hstep]
          have hfuel : (e - (mod_signed e).natAbs) / 2 ≤ n := by omega
          rw [ih _ hfuel]
          omega
      · simp only [if_neg hpar, wnafVal]
        rw [ih (e / 2) (by omega)]
        omega

/-- The value of the full recoding. -/
lemma to_wnaf_val (e : Nat) : wnafVal (to_wnaf e) = e :=
  to_wnafAux_val e e le_rfl

end WnafValue

section MulSemantics

open WeierstrassCurve.Jacobian

variable {F : Type} [Field F] [DecidableEq F]

lemma getD_of_lt {α : Type} (l : List α) (d : α) {j : Nat} (h : j < l.length) :
    l.getD j d = l.get ⟨j, h⟩ := by
  rw [List.getD_eq_getElem?_getD, List.getElem?_eq_getElem h]
  rfl

/-- Pointwise group-element preservation of `batch_normalization` (each output
point equals the input point it replaces, in the code's equality). -/
lemma batch_eq_pointwise (v : List (Projective F)) :
    List.Forall₂ (fun g g' => Projective.eq g' g = true) v (batch_normalization v) := by
  refine (batch_normalization_spec v).imp ?_
  rintro g g' (⟨hg, h⟩ | ⟨hg, h⟩)
  · rw [h]
    exact Projective.eq_refl g
  · rcases (Projective.is_normalized_false_iff g).mp hg with ⟨hz0, _⟩
    rw [h]
    refine (Projective.eq_true_iff one_ne_zero hz0).mpr ⟨?_, ?_⟩ <;> field_simp

/-- Semantics of the table-building loop: entry `j` of
`tableAux aW dbl n prev` is the group element `prev + (j + 1)·dbl`. -/
lemma tableAux_spec (aW bW : F) (h2 : (2 : F) ≠ 0) (dbl : AffinePoint F)
    (hdbl : ValidA aW bW dbl) :
    ∀ (n : Nat) (prev : Projective F), Valid aW bW prev → ∀ j, j < n →
      Valid aW bW ((tableAux aW dbl n prev).getD j Projective.zero) ∧
        toPoint aW bW ((tableAux aW dbl n prev).getD j Projective.zero) =
          toPoint aW bW prev + ((j : ℤ) + 1) • toPointA aW bW dbl := by
  intro n
  induction n with
  | zero =>
    intro prev _ j hj
    omega
  | succ m ih =>
    intro prev hprev j hj
    rcases toPoint_add_mixed aW bW h2 prev dbl hprev hdbl with ⟨hval, hv⟩
    unfold tableAux
    simp only
    cases j with
    | zero =>
      rw [List.getD_cons_zero]
      refine ⟨hv, ?_⟩
      show toPoint aW bW (Projective.add_assign_mixed aW prev dbl) = _
      rw [hval, Nat.cast_zero, zero_add, one_zsmul]
    | succ i =>
      rw [List.getD_cons_succ]
      have hrec := ih (Projective.add_mixed aW prev dbl) hv i (by omega)
      refine ⟨hrec.1, ?_⟩
      rw [hrec.2]
      show toPoint aW bW (Projective.add_assign_mixed aW prev dbl) + _ = _
      rw [hval]
      push_cast
      module

/-- Semantics of the projective GLV table: entry `j` is `(2j + 1)·P`. -/
lemma glvTableT1_spec (aW bW : F) (h2 : (2 : F) ≠ 0) (p : Projective F)
    (hp : Valid aW bW p) :
    ∀ j, j < 8 →
      Valid aW bW ((glvTableT1 aW p).getD j Projective.zero) ∧
        toPoint aW bW ((glvTableT1 aW p).getD j Projective.zero) =
          (2 * (j : ℤ) + 1) • toPoint aW bW p := by
  intro j hj
  have hdv := toPoint_double aW bW p hp
  have hta := toPoint_to_affine aW bW (Projective.double aW p) hdv.2
  unfold glvTableT1
  cases j with
  | zero =>
    rw [List.getD_cons_zero]
    refine ⟨hp, ?_⟩
    rw [Nat.cast_zero, mul_zero, zero_add, one_zsmul]
  | succ i =>
    rw [List.getD_cons_succ]
    have hrec := tableAux_spec aW bW h2 _ hta.1 7 p hp i (by omega)
    refine ⟨hrec.1, ?_⟩
    rw [hrec.2, hta.2, hdv.1]
    push_cast
    module

/-- Semantics of the normalized affine GLV table used by the main loop. -/
lemma affineTable_spec (aW bW : F) (h2 : (2 : F) ≠ 0) (p : Projective F)
    (hp : Valid aW bW p) :
    ∀ j, j < 8 →
      ValidA aW bW
          ((batch_normalization_into_affine (glvTableT1 aW p)).getD j ⟨0, 1, true⟩) ∧
        toPointA aW bW
            ((batch_normalization_into_affine (glvTableT1 aW p)).getD j ⟨0, 1, true⟩) =
          (2 * (j : ℤ) + 1) • toPoint aW bW p := by
  intro j hj
  have hlen1 : (glvTableT1 aW p).length = 8 := by
    unfold glvTableT1
    rw [List.length_cons, tableAux_length]
  have hlen2 : (batch_normalization (glvTableT1 aW p)).length = 8 := by
    rw [batch_normalization_length, hlen1]
  have hj2 : j < (batch_normalization (glvTableT1 aW p)).length := by omega
  have hj1 : j < (glvTableT1 aW p).length := by omega
  have hmaplen : j < ((batch_normalization (glvTableT1 aW p)).map Projective.to_affine).length := by
    rw [List.length_map]
    omega
  have hgetmap : (batch_normalization_into_affine (glvTableT1 aW p)).getD j ⟨0, 1, true⟩ =
      Projective.to_affine ((batch_normalization (glvTableT1 aW p)).get ⟨j, hj2⟩) := by
    show ((batch_normalization (glvTableT1 aW p)).map Projective.to_affine).getD j ⟨0, 1, true⟩ = _
    rw [getD_of_lt _ _ hmaplen]
    simp
  rcases List.forall₂_iff_get.mp (batch_eq_pointwise (glvTableT1 aW p)) with ⟨_, hget⟩
  have heq := hget j (by omega) hj2
  have horig := glvTableT1_spec aW bW h2 p hp j hj
  rw [getD_of_lt _ _ hj1] at horig
  have hvalid : Valid aW bW ((batch_normalization (glvTableT1 aW p)).get ⟨j, hj2⟩) :=
    valid_of_eq aW bW heq horig.1
  have hpoint : toPoint aW bW ((batch_normalization (glvTableT1 aW p)).get ⟨j, hj2⟩) =
      (2 * (j : ℤ) + 1) • toPoint aW bW p := by
    rw [(eq_iff_toPoint aW bW _ _ hvalid horig.1).mp heq, horig.2]
  have hta := toPoint_to_affine aW bW _ hvalid
  rw [hgetmap]
  exact ⟨hta.1, by rw [hta.2, hpoint]⟩

/-- Partial little-endian value of the first `n` digit positions of a digit
string (positions past the end count as `0`). -/
def wnafValBelow (l : List Int) (n : Nat) : ℤ :=
  ∑ j ∈ Finset.range n, l.getD j 0 * 2 ^ j

lemma wnafValBelow_one (l : List Int) : wnafValBelow l 1 = l.getD 0 0 := by
  unfold wnafValBelow
  rw [Finset.sum_range_one]
  ring

lemma wnafValBelow_succ (l : List Int) (n : Nat) :
    wnafValBelow l (n + 1) = wnafValBelow l n + l.getD n 0 * 2 ^ n :=
  Finset.sum_range_succ _ n

lemma wnafValBelow_eq_val (l : List Int) : ∀ n, l.length ≤ n → wnafValBelow l n = wnafVal l := by
  induction l with
  | nil =>
    intro n _
    unfold wnafValBelow wnafVal
    exact Finset.sum_eq_zero fun j _ => by simp
  | cons d t ih =>
    intro n hn
    rcases n with _ | m
    · simp at hn
    · unfold wnafValBelow
      rw [Finset.sum_range_succ']
      have hterm : ∀ j ∈ Finset.range m, (d :: t).getD (j + 1) 0 * 2 ^ (j + 1) =
          2 * (t.getD j 0 * 2 ^ j) := fun j _ => by
        rw [List.getD_cons_succ]
        ring
      rw [Finset.sum_congr rfl hterm, ← Finset.mul_sum]
      show 2 * wnafValBelow t m + (d :: t).getD 0 0 * 2 ^ 0 = wnafVal (d :: t)
      rw [ih m (by simpa using hn)]
      show 2 * wnafVal t + d * 2 ^ 0 = wnafVal (d :: t)
      simp only [wnafVal]
      ring

/-- Semantics of `naf_add`: adding digit `d` contributes `d` times the table's
base group element (the table holds the odd multiples `(2j+1)·B`). -/
lemma naf_add_spec (aW bW : F) (h2 : (2 : F) ≠ 0) (table : List (AffinePoint F))
    (B : (shortW aW bW).toAffine.Point)
    (ht : ∀ j, j < 8 → ValidA aW bW (table.getD j ⟨0, 1, true⟩) ∧
        toPointA aW bW (table.getD j ⟨0, 1, true⟩) = (2 * (j : ℤ) + 1) • B)
    (d : Int) (hd : d = 0 ∨ (d.natAbs % 2 = 1 ∧ d.natAbs ≤ 15))
    (acc : Projective F) (hacc : Valid aW bW acc) :
    Valid aW bW (naf_add aW table d acc) ∧
      toPoint aW bW (naf_add aW table d acc) = toPoint aW bW acc + d • B := by
  rcases hd with rfl | ⟨hodd, hle⟩
  · unfold naf_add
    rw [if_neg (by simp)]
    exact ⟨hacc, by rw [zero_zsmul, add_zero]⟩
  · have hd0 : d ≠ 0 := by
      intro h
      rw [h] at hodd
      simp at hodd
    unfold naf_add
    rw [if_pos hd0]
    simp only
    have hidx8 : d.natAbs >>> 1 < 8 := by
      rw [Nat.shiftRight_eq_div_pow, pow_one]
      omega
    have hentry := ht (d.natAbs >>> 1) hidx8
    by_cases hneg : d < 0
    · rw [if_pos hneg]
      rcases toPointA_neg aW bW _ hentry.1 with ⟨hnval, hnv⟩
      rcases toPoint_add_mixed aW bW h2 acc _ hacc hnv with ⟨haval, hav⟩
      refine ⟨hav, ?_⟩
      rw [haval, hnval, hentry.2, ← neg_zsmul]
      congr 2
      rw [Nat.shiftRight_eq_div_pow, pow_one]
      omega
    · rw [if_neg hneg]
      rcases toPoint_add_mixed aW bW h2 acc _ hacc hentry.1 with ⟨haval, hav⟩
      refine ⟨hav, ?_⟩
      rw [haval, hentry.2]
      congr 2
      rw [Nat.shiftRight_eq_div_pow, pow_one]
      omega

lemma getD_zero_of_len_le (l : List Int) {n : Nat} (h : l.length ≤ n) : l.getD n 0 = 0 := by
  rw [List.getD_eq_getElem?_getD, List.getElem?_eq_none h]
  rfl

lemma getD_digit_mem (l : List Int) {n : Nat} (h : n < l.length) : l.getD n 0 ∈ l := by
  rw [getD_of_lt _ _ h]
  exact List.get_mem l _ h

/-- Semantics of one full pass of the main loop, counting down from position
`i`: the accumulator is doubled `i` times and collects the digit
contributions of both sequences weighted by the corresponding powers of 2. -/
lemma mulLoop_succ_spec (aW bW : F) (h2 : (2 : F) ≠ 0)
    (t1 t2 : List (AffinePoint F)) (n1 n2 : List Int)
    (B1 B2 : (shortW aW bW).toAffine.Point)
    (ht1 : ∀ j, j < 8 → ValidA aW bW (t1.getD j ⟨0, 1, true⟩) ∧
        toPointA aW bW (t1.getD j ⟨0, 1, true⟩) = (2 * (j : ℤ) + 1) • B1)
    (ht2 : ∀ j, j < 8 → ValidA aW bW (t2.getD j ⟨0, 1, true⟩) ∧
        toPointA aW bW (t2.getD j ⟨0, 1, true⟩) = (2 * (j : ℤ) + 1) • B2)
    (hd1 : ∀ d ∈ n1, d = 0 ∨ (d.natAbs % 2 = 1 ∧ d.natAbs ≤ 15))
    (hd2 : ∀ d ∈ n2, d = 0 ∨ (d.natAbs % 2 = 1 ∧ d.natAbs ≤ 15)) :
    ∀ i acc, Valid aW bW acc →
      Valid aW bW (mulLoop aW t1 t2 n1 n2 (i + 1) acc) ∧
        toPoint aW bW (mulLoop aW t1 t2 n1 n2 (i + 1) acc) =
          (2 ^ i : ℤ) • toPoint aW bW acc + wnafValBelow n1 (i + 1) • B1 +
            wnafValBelow n2 (i + 1) • B2 := by
  have hstep1 : ∀ i acc, Valid aW bW acc →
      Valid aW bW (if i < n1.length then naf_add aW t1 (n1.getD i 0) acc else acc) ∧
        toPoint aW bW (if i < n1.length then naf_add aW t1 (n1.getD i 0) acc else acc) =
          toPoint aW bW acc + n1.getD i 0 • B1 := by
    intro i acc hacc
    by_cases h : i < n1.length
    · rw [if_pos h]
      exact And.intro (naf_add_spec aW bW h2 t1 B1 ht1 _ (hd1 _ (getD_digit_mem n1 h)) acc hacc).1
        (naf_add_spec aW bW h2 t1 B1 ht1 _ (hd1 _ (getD_digit_mem n1 h)) acc hacc).2
    · rw [if_neg h]
      rw [getD_zero_of_len_le n1 (by omega)]
      exact ⟨hacc, by rw [zero_zsmul, add_zero]⟩
  have hstep2 : ∀ i acc, Valid aW bW acc →
      Valid aW bW (if i < n2.length then naf_add aW t2 (n2.getD i 0) acc else acc) ∧
        toPoint aW bW (if i < n2.length then naf_add aW t2 (n2.getD i 0) acc else acc) =
          toPoint aW bW acc + n2.getD i 0 • B2 := by
    intro i acc hacc
    by_cases h : i < n2.length
    · rw [if_pos h]
      exact And.intro (naf_add_spec aW bW h2 t2 B2 ht2 _ (hd2 _ (getD_digit_mem n2 h)) acc hacc).1
        (naf_add_spec aW bW h2 t2 B2 ht2 _ (hd2 _ (getD_digit_mem n2 h)) acc hacc).2
    · rw [if_neg h]
      rw [getD_zero_of_len_le n2 (by omega)]
      exact ⟨hacc, by rw [zero_zsmul, add_zero]⟩
  intro i
  induction i with
  | zero =>
    intro acc hacc
    show Valid aW bW (mulLoop aW t1 t2 n1 n2 1 acc) ∧ _
    have hs1 := hstep1 0 acc hacc
    have hs2 := hstep2 0 _ hs1.1
    unfold mulLoop
    simp only [ne_eq, not_true_eq_false, if_neg (by omega : ¬(0 : Nat) ≠ 0)]
    refine ⟨hs2.1, ?_⟩
    show toPoint aW bW (if 0 < n2.length then _ else _) = _
    rw [hs2.2, hs1.2, wnafValBelow_one, wnafValBelow_one, pow_zero, one_zsmul]
  | succ m ih =>
    intro acc hacc
    have hs1 := hstep1 (m + 1) acc hacc
    have hs2 := hstep2 (m + 1) _ hs1.1
    have hdd := toPoint_double aW bW _ hs2.1
    show Valid aW bW (mulLoop aW t1 t2 n1 n2 (m + 1 + 1) acc) ∧ _
    unfold mulLoop
    simp only [if_pos (by omega : (m + 1 : Nat) ≠ 0)]
    have hrec := ih _ hdd.2
    refine ⟨hrec.1, ?_⟩
    rw [hrec.2, hdd.1, hs2.2, hs1.2, wnafValBelow_succ n1 (m + 1),
      wnafValBelow_succ n2 (m + 1)]
    push_cast
    module

lemma Projective.zero_is_zero : (Projective.zero : Projective F).is_zero = true := by
  simp [Projective.zero, Projective.is_zero]

lemma Projective.double_zeroP (aW : F) :
    Projective.double aW (Projective.zero : Projective F) = Projective.zero := by
  unfold Projective.double
  rw [if_pos Projective.zero_is_zero]

lemma Projective.add_zeroP_left (aW : F) (q : Projective F) :
    Projective.add aW Projective.zero q = q := by
  unfold Projective.add
  rw [if_pos Projective.zero_is_zero]

lemma naiveMul_zero_scalar (aW : F) (p : Projective F) :
    naiveMul aW 0 p = Projective.zero :=
  rfl

lemma naiveMul_one_scalar (aW : F) (p : Projective F) : naiveMul aW 1 p = p := by
  show naiveMulAux aW p 1 1 = p
  unfold naiveMulAux
  rw [if_neg one_ne_zero, if_pos rfl]
  show Projective.add aW (Projective.double aW (naiveMulAux aW p 0 (1 / 2))) p = p
  rw [show naiveMulAux aW p 0 (1 / 2) = Projective.zero from rfl,
    Projective.double_zeroP, Projective.add_zeroP_left]

lemma naiveMulAux_zeroP (aW : F) : ∀ fuel k,
    naiveMulAux aW (Projective.zero : Projective F) fuel k = Projective.zero := by
  intro fuel
  induction fuel with
  | zero => intro k; rfl
  | succ n ih =>
    intro k
    unfold naiveMulAux
    by_cases hk : k = 0
    · rw [if_pos hk]
    · rw [if_neg hk, ih, Projective.double_zeroP]
      by_cases hpar : k % 2 = 1
      · rw [if_pos hpar, Projective.add_zeroP_left]
      · rw [if_neg hpar]

lemma naiveMul_zeroP (aW : F) (k : Nat) :
    naiveMul aW k (Projective.zero : Projective F) = Projective.zero :=
  naiveMulAux_zeroP aW k k

lemma digits_map_neg {l : List Int}
    (h : ∀ d ∈ l, d = 0 ∨ (d.natAbs % 2 = 1 ∧ d.natAbs ≤ 15)) :
    ∀ d ∈ l.map (fun d => -d), d = 0 ∨ (d.natAbs % 2 = 1 ∧ d.natAbs ≤ 15) := by
  intro d hd
  rcases List.mem_map.mp hd with ⟨d0, hd0, rfl⟩
  rcases h d0 hd0 with rfl | hb
  · exact Or.inl (by simp)
  · exact Or.inr (by simpa using hb)

/-- Modelled from the spec: the signed integer represented by a GLV
decomposition `(k1, k2, s1, s2)` for the endomorphism eigenvalue `lam`, with
the sign convention applied by the code (`wnaf_1` is negated when `s1` holds
and `wnaf_2` is negated when `s2` fails). -/
def decomposedVal (d : Nat × Nat × Bool × Bool) (lam : Nat) : ℤ :=
  (if d.2.2.1 then -(d.1 : ℤ) else (d.1 : ℤ)) +
    (if d.2.2.2 then (d.2.1 : ℤ) else -(d.2.1 : ℤ)) * (lam : ℤ)

/-- The heart of claim C1: `Mul::mul` computes the scalar multiple of `P` by
the signed integer represented by the decomposition, in the curve group. -/
lemma glv_mul_semantics (aW bW : F) (lam : Nat) (glv : AffinePoint F → AffinePoint F)
    (decompose : Nat → Nat × Nat × Bool × Bool) (h2 : (2 : F) ≠ 0)
    (p : Projective F) (hp : Valid aW bW p)
    (hglv : ∀ q : AffinePoint F, ValidA aW bW q → ValidA aW bW (glv q) ∧
        Projective.eq (Projective.fromAffine (glv q))
          (naiveMul aW lam (Projective.fromAffine q)) = true)
    (k : Nat) :
    Valid aW bW (Projective.mul aW glv decompose p k) ∧
      toPoint aW bW (Projective.mul aW glv decompose p k) =
        decomposedVal (decompose k) lam • toPoint aW bW p := by
  have ht1 := affineTable_spec aW bW h2 p hp
  have ht1len : (batch_normalization_into_affine (glvTableT1 aW p)).length = 8 :=
    glvTable_length aW p
  -- The second table: `glv` applied entrywise computes `lam`-multiples.
  have ht2 : ∀ j, j < 8 →
      ValidA aW bW (((batch_normalization_into_affine (glvTableT1 aW p)).map glv).getD j
          ⟨0, 1, true⟩) ∧
        toPointA aW bW (((batch_normalization_into_affine (glvTableT1 aW p)).map glv).getD j
            ⟨0, 1, true⟩) =
          (2 * (j : ℤ) + 1) • ((lam : ℤ) • toPoint aW bW p) := by
    intro j hj
    have hjl : j < (batch_normalization_into_affine (glvTableT1 aW p)).length := by omega
    have hjm : j < ((batch_normalization_into_affine (glvTableT1 aW p)).map glv).length := by
      rw [List.length_map]
      omega
    have hgetmap : ((batch_normalization_into_affine (glvTableT1 aW p)).map glv).getD j
        ⟨0, 1, true⟩ =
        glv ((batch_normalization_into_affine (glvTableT1 aW p)).getD j ⟨0, 1, true⟩) := by
      rw [getD_of_lt _ _ hjm, getD_of_lt _ _ hjl]
      simp
    rcases ht1 j hj with ⟨hv1, he1⟩
    rcases hglv _ hv1 with ⟨hvg, heg⟩
    have hnaive := toPoint_naiveMul aW bW h2 _ hv1 lam
    have hφ : toPointA aW bW
        (glv ((batch_normalization_into_affine (glvTableT1 aW p)).getD j ⟨0, 1, true⟩)) =
        (lam : ℤ) • toPointA aW bW
          ((batch_normalization_into_affine (glvTableT1 aW p)).getD j ⟨0, 1, true⟩) := by
      have := (eq_iff_toPoint aW bW _ _ hvg hnaive.2).mp heg
      unfold toPointA
      rw [this, hnaive.1]
    rw [hgetmap]
    refine ⟨hvg, ?_⟩
    show toPointA aW bW _ = _
    rw [hφ, he1, smul_comm]
  -- Digit sequences and their bounds and values.
  have hb1 : ∀ d ∈ (wnafPair (decompose k).1 (decompose k).2.1 (decompose k).2.2.1
      (decompose k).2.2.2).1, d = 0 ∨ (d.natAbs % 2 = 1 ∧ d.natAbs ≤ 15) := by
    unfold wnafPair
    simp only
    by_cases hs : (decompose k).2.2.1 = true
    · rw [if_pos hs]
      exact digits_map_neg (to_wnafAux_digits _ _)
    · rw [if_neg hs]
      exact to_wnafAux_digits _ _
  have hb2 : ∀ d ∈ (wnafPair (decompose k).1 (decompose k).2.1 (decompose k).2.2.1
      (decompose k).2.2.2).2, d = 0 ∨ (d.natAbs % 2 = 1 ∧ d.natAbs ≤ 15) := by
    unfold wnafPair
    simp only
    by_cases hs : (!(decompose k).2.2.2) = true
    · rw [if_pos hs]
      exact digits_map_neg (to_wnafAux_digits _ _)
    · rw [if_neg hs]
      exact to_wnafAux_digits _ _
  have hv1 : wnafVal (wnafPair (decompose k).1 (decompose k).2.1 (decompose k).2.2.1
      (decompose k).2.2.2).1 =
      (if (decompose k).2.2.1 then -((decompose k).1 : ℤ) else ((decompose k).1 : ℤ)) := by
    unfold wnafPair
    simp only
    by_cases hs : (decompose k).2.2.1 = true
    · rw [if_pos hs, if_pos hs, wnafVal_map_neg, to_wnaf_val]
    · rw [if_neg hs, if_neg hs, to_wnaf_val]
  have hv2 : wnafVal (wnafPair (decompose k).1 (decompose k).2.1 (decompose k).2.2.1
      (decompose k).2.2.2).2 =
      (if (decompose k).2.2.2 then ((decompose k).2.1 : ℤ) else -((decompose k).2.1 : ℤ)) := by
    unfold wnafPair
    simp only
    by_cases hs : (decompose k).2.2.2 = true
    · rw [if_neg (by simp [hs]), if_pos hs, to_wnaf_val]
    · rw [if_pos (by simp [hs] : (!(decompose k).2.2.2) = true), if_neg hs, wnafVal_map_neg,
        to_wnaf_val]
  -- The final loop.
  have hmul : Projective.mul aW glv decompose p k =
      mulLoop aW (batch_normalization_into_affine (glvTableT1 aW p))
        ((batch_normalization_into_affine (glvTableT1 aW p)).map glv)
        (wnafPair (decompose k).1 (decompose k).2.1 (decompose k).2.2.1 (decompose k).2.2.2).1
        (wnafPair (decompose k).1 (decompose k).2.1 (decompose k).2.2.1 (decompose k).2.2.2).2
        (max (wnafPair (decompose k).1 (decompose k).2.1 (decompose k).2.2.1
            (decompose k).2.2.2).1.length
          (wnafPair (decompose k).1 (decompose k).2.1 (decompose k).2.2.1
            (decompose k).2.2.2).2.length)
        Projective.zero := rfl
  rw [hmul]
  rcases hml : max (wnafPair (decompose k).1 (decompose k).2.1 (decompose k).2.2.1
      (decompose k).2.2.2).1.length
    (wnafPair (decompose k).1 (decompose k).2.1 (decompose k).2.2.1
      (decompose k).2.2.2).2.length with _ | i
  · -- Both digit strings are empty; the result is the identity.
    have hn1 : (wnafPair (decompose k).1 (decompose k).2.1 (decompose k).2.2.1
        (decompose k).2.2.2).1 = [] := List.length_eq_zero.mp (by omega)
    have hn2 : (wnafPair (decompose k).1 (decompose k).2.1 (decompose k).2.2.1
        (decompose k).2.2.2).2 = [] := List.length_eq_zero.mp (by omega)
    refine ⟨valid_zero aW bW, ?_⟩
    show toPoint aW bW Projective.zero = _
    rw [toPoint_of_z_zero aW bW rfl]
    have e1 : (0 : ℤ) = wnafVal (wnafPair (decompose k).1 (decompose k).2.1
        (decompose k).2.2.1 (decompose k).2.2.2).1 := by rw [hn1]; rfl
    have e2 : (0 : ℤ) = wnafVal (wnafPair (decompose k).1 (decompose k).2.1
        (decompose k).2.2.1 (decompose k).2.2.2).2 := by rw [hn2]; rfl
    unfold decomposedVal
    rw [← hv1, ← hv2, ← e1, ← e2]
    simp
  · have hloop := mulLoop_succ_spec aW bW h2 _ _ _ _ (toPoint aW bW p)
      ((lam : ℤ) • toPoint aW bW p) ht1 ht2 hb1 hb2 i Projective.zero (valid_zero aW bW)
    refine ⟨hloop.1, ?_⟩
    rw [hloop.2, toPoint_of_z_zero aW bW rfl, smul_zero, zero_add,
      wnafValBelow_eq_val _ _ (by omega), wnafValBelow_eq_val _ _ (by omega), hv1, hv2]
    unfold decomposedVal
    rw [add_zsmul, mul_zsmul]

/-- Claim C1: for every projective point `P` on the curve and every scalar
`k`, the GLV+wNAF scalar multiplication `Mul::mul` returns the same group
element as naive double-and-add of the un-decomposed scalar; in particular
`0·P` is the identity, `1·P` equals `P`, and `k·identity` is the identity.
The external `glv_endomorphism` and `decompose` are modelled by hypotheses:
`glv` computes multiplication by the eigenvalue `lam`, the decomposition
represents `k` modulo the group exponent `r`, and `P` is `r`-torsion. -/
theorem glv_mul_matches_naive_double_and_add (aW bW : F) (lam r : Nat)
    (glv : AffinePoint F → AffinePoint F) (decompose : Nat → Nat × Nat × Bool × Bool)
    (h2 : (2 : F) ≠ 0) (p : Projective F) (hp : Valid aW bW p) (k : Nat)
    (htor : Projective.eq (naiveMul aW r p) Projective.zero = true)
    (hglv : ∀ q : AffinePoint F, ValidA aW bW q → ValidA aW bW (glv q) ∧
        Projective.eq (Projective.fromAffine (glv q))
          (naiveMul aW lam (Projective.fromAffine q)) = true)
    (hdec : (decomposedVal (decompose k) lam - (k : ℤ)) % (r : ℤ) = 0) :
    Projective.eq (Projective.mul aW glv decompose p k) (naiveMul aW k p) = true ∧
      (k = 0 → Projective.eq (Projective.mul aW glv decompose p k) Projective.zero = true) ∧
      (k = 1 → Projective.eq (Projective.mul aW glv decompose p k) p = true) ∧
      Projective.eq (Projective.mul aW glv decompose Projective.zero k)
        Projective.zero = true := by
  have main : ∀ p' : Projective F, Valid aW bW p' →
      Projective.eq (naiveMul aW r p') Projective.zero = true →
      Projective.eq (Projective.mul aW glv decompose p' k) (naiveMul aW k p') = true := by
    intro p' hp' htor'
    have hsem := glv_mul_semantics aW bW lam glv decompose h2 p' hp' hglv k
    have hnk := toPoint_naiveMul aW bW h2 p' hp' k
    have hnr := toPoint_naiveMul aW bW h2 p' hp' r
    have hr0 : (r : ℤ) • toPoint aW bW p' = 0 := by
      have h0 := (eq_iff_toPoint aW bW _ _ hnr.2 (valid_zero aW bW)).mp htor'
      rw [toPoint_of_z_zero aW bW (rfl : (Projective.zero : Projective F).z = 0)] at h0
      rw [← hnr.1]
      exact h0
    obtain ⟨t, ht⟩ := Int.dvd_of_emod_eq_zero hdec
    have hval : decomposedVal (decompose k) lam = (k : ℤ) + t * (r : ℤ) := by linarith
    apply (eq_iff_toPoint aW bW _ _ hsem.1 hnk.2).mpr
    rw [hsem.2, hnk.1, hval, add_zsmul, mul_zsmul, hr0, smul_zero, add_zero]
  refine ⟨main p hp htor, ?_, ?_, ?_⟩
  · intro hk
    subst hk
    have h := main p hp htor
    rwa [naiveMul_zero_scalar] at h
  · intro hk
    subst hk
    have h := main p hp htor
    rwa [naiveMul_one_scalar] at h
  · have hz : Projective.eq (naiveMul aW r (Projective.zero : Projective F))
        Projective.zero = true := by
      rw [naiveMul_zeroP]
      exact Projective.eq_refl _
    have h := main Projective.zero (valid_zero aW bW) hz
    rwa [naiveMul_zeroP] at h

set_option maxRecDepth 4000 in
/-- Witness for C1 on the curve `y² = x³ + 1` over `ZMod 5` (group order 6),
with the identity endomorphism (`lam = 1`), the trivial decomposition
`k ↦ (k, 0, false, true)`, the point `(0, 1)` and the scalar `7`. -/
theorem glv_mul_matches_naive_double_and_add_witness :
    Projective.eq
      (Projective.mul (0 : ZMod 5) id (fun k => (k, 0, false, true)) ⟨0, 1, 1⟩ 7)
      (naiveMul (0 : ZMod 5) 7 ⟨0, 1, 1⟩) = true :=
  (glv_mul_matches_naive_double_and_add 0 1 1 6 id (fun k => (k, 0, false, true))
    (by decide) ⟨0, 1, 1⟩ (by decide) 7 (by decide)
    (fun q hq => ⟨hq, by rw [naiveMul_one_scalar]; exact Projective.eq_refl _⟩)
    (by decide)).1

end MulSemantics
